import Mathlib

/-!
Verification of the FourSG static-site generator core
(`src/SiteGenerator.ts`, `src/SitemapGenerator.ts`).

The TypeScript source works on slash-separated vault paths and plain
strings.  The embedding below models strings through their character
lists (`String.data`) and implements, under the same names where Lean
allows it, the path utilities (`getOutputPath`, `getRelativePath`,
`sanitizeDirectoryPath`, ...), the reference resolution
(`findTargetFile`, `findImageFile`), the wiki-link / image-embed
rewriting passes, the navigation-tree builder, the sitemap accumulator
and the two-tier recursive directory removal.

External collaborators (the `pathe` path library, the `slugify`
transform, the Obsidian `DataAdapter`) are not part of the repository;
`slugify` is modelled from the spec's description of it, `pathe`'s
slash-separated path operations are implemented directly, and the
`DataAdapter` is kept abstract as a record of state-passing operations.
-/

set_option maxHeartbeats 1000000

namespace FourSG

/-! ### Character-level toolkit -/

/-- Characters of a string. -/
def chars (s : String) : List Char := s.data

/-- JS `<` / `toLowerCase` helpers are defined over `Char.toNat` so that
arithmetic reasoning stays in `Nat`. -/
def isLowerAZ (c : Char) : Bool := 97 ≤ c.toNat && c.toNat ≤ 122

def isUpperAZ (c : Char) : Bool := 65 ≤ c.toNat && c.toNat ≤ 90

def isDigitCh (c : Char) : Bool := 48 ≤ c.toNat && c.toNat ≤ 57

/-- ASCII lower-casing of one character (JS `toLowerCase` restricted to
ASCII, which is all the source relies on). -/
def jsCharLower (c : Char) : Char :=
  if isUpperAZ c then Char.ofNat (c.toNat + 32) else c

/-- JS `String.prototype.toLowerCase` (ASCII fragment). -/
def jsToLower (s : String) : String := String.mk (s.data.map jsCharLower)

/-- JS whitespace test (the characters `trim` removes; restricted to the
common ASCII whitespace). -/
def isWsCh (c : Char) : Bool :=
  c = ' ' || c = '\t' || c = '\n' || c = '\r'

/-- JS `String.prototype.trim`. -/
def jsTrim (s : String) : String :=
  String.mk (((s.data.dropWhile isWsCh).reverse.dropWhile isWsCh).reverse)

/-- Does `l` start with `pat`? -/
def startsWithCh : List Char → List Char → Bool
  | [], _ => true
  | _ :: _, [] => false
  | p :: ps, c :: cs => p = c && startsWithCh ps cs

/-- Does `l` end with `pat`? -/
def endsWithCh (l pat : List Char) : Bool :=
  startsWithCh pat.reverse l.reverse

/-- Is `pat` a contiguous segment of `l`? -/
def containsSeg (pat : List Char) : List Char → Bool
  | [] => pat.isEmpty
  | c :: rest => startsWithCh pat (c :: rest) || containsSeg pat rest

/-- Split a character list at every occurrence of `sep` (JS
`String.prototype.split` with a one-character separator). -/
def splitCh (sep : Char) : List Char → List (List Char)
  | [] => [[]]
  | c :: rest =>
    if c = sep then [] :: splitCh sep rest
    else
      match splitCh sep rest with
      | [] => [[c]]
      | g :: gs => (c :: g) :: gs

/-- Join character lists with a separator character. -/
def joinCh (sep : Char) : List (List Char) → List Char
  | [] => []
  | [g] => g
  | g :: gs => g ++ sep :: joinCh sep gs

/-- Concatenation of the images of `f` (used instead of `List.flatMap`). -/
def concatMap (f : α → List β) : List α → List β
  | [] => []
  | x :: xs => f x ++ concatMap f xs

/-- Intercalate strings with a separator string. -/
def strIntercalate (sep : String) : List String → String
  | [] => ""
  | [s] => s
  | s :: rest => s ++ sep ++ strIntercalate sep rest

/-- Replace the first occurrence of `pat` (nonempty) inside `l` by `repl`
(JS `String.prototype.replace` with a plain-string pattern). -/
def replaceFirstCh (pat repl : List Char) : List Char → List Char
  | [] => if pat.isEmpty then repl else []
  | c :: rest =>
    if startsWithCh pat (c :: rest) then repl ++ (c :: rest).drop pat.length
    else c :: replaceFirstCh pat repl rest

/-! ### The slugify collaborator, modelled from the spec -/

/-- Characters that survive the slug transform before whitespace
collapsing: lower-case ASCII letters, digits, the hyphen and the space. -/
def sanitizeKeep (c : Char) : Bool :=
  isLowerAZ c || isDigitCh c || c = '-' || c = ' '

/-- Collapse every run of spaces into a single hyphen; the flag records
whether the scan is inside a space run. -/
def collapseSpAux (inRun : Bool) : List Char → List Char
  | [] => []
  | c :: rest =>
    if c = ' ' then
      if inRun then collapseSpAux true rest else '-' :: collapseSpAux true rest
    else c :: collapseSpAux false rest

def collapseSp (l : List Char) : List Char := collapseSpAux false l

/-- Trim spaces from both ends. -/
def trimSp (l : List Char) : List Char :=
  ((l.dropWhile (· = ' ')).reverse.dropWhile (· = ' ')).reverse

/-- Modelled from the spec: the external `slugify` transform that
`sanitizeFilename` delegates to is not part of the repository; the spec
describes it as a transform that lower-cases, strips
diacritics/punctuation down to ASCII-safe characters, and collapses
whitespace runs into hyphens.  The model lower-cases, keeps only ASCII
letters, digits, hyphens and spaces, trims, and turns each space run
into one hyphen. -/
def sanitizeFilename (s : String) : String :=
  String.mk (collapseSp (trimSp ((s.data.map jsCharLower).filter sanitizeKeep)))

/-! ### Slash-separated path operations

Vault and output paths in the source are slash-separated relative
paths; the `pathe` operations the source uses (`join`, `dirname`,
`basename`, `relative`, normalization) are implemented below directly
on the segment lists. -/

/-- `p.split('/')`, as a list of strings. -/
def splitSlash (s : String) : List String :=
  (splitCh '/' s.data).map String.mk

/-- Join segments with `'/'`. -/
def joinSegs (l : List String) : String :=
  String.mk (joinCh '/' (l.map String.data))

/-- Path normalization over segments: drop empty and `"."` segments,
let `".."` cancel the preceding real segment (leading `".."`s pile up,
as in `pathe` for relative paths).  The first argument is the stack of
already-kept segments, in reverse order. -/
def normSegs : List String → List String → List String
  | stack, [] => stack.reverse
  | stack, s :: rest =>
    if s = "" then normSegs stack rest
    else if s = "." then normSegs stack rest
    else if s = ".." then
      match stack with
      | [] => normSegs [".."] rest
      | top :: stk =>
        if top = ".." then normSegs (s :: top :: stk) rest else normSegs stk rest
    else normSegs (s :: stack) rest

/-- `pathe`'s `join`: concatenate the parts and normalize.  An empty
result renders as `"."`. -/
def joinPath (parts : List String) : String :=
  let ss := normSegs [] (concatMap splitSlash parts)
  if ss.isEmpty then "." else joinSegs ss

/-- `pathe`'s `dirname` for relative slash paths: everything before the
last separator, `"."` when there is none. -/
def dirname (p : String) : String :=
  let parts := splitSlash p
  if parts.length ≤ 1 then "." else joinSegs parts.dropLast

/-- Last path segment (`pathe`'s `basename` without an extension
argument). -/
def lastSeg (p : String) : String := (splitSlash p).getLastD ""

/-- `pathe`'s `basename(p, ext)`: the last segment, with `ext` stripped
when it is a proper suffix. -/
def basenameExt (p ext : String) : String :=
  let nm := lastSeg p
  if endsWithCh nm.data ext.data && ext.data.length < nm.data.length then
    String.mk (nm.data.take (nm.data.length - ext.data.length))
  else nm

/-- One Obsidian `TFile`, reduced to its vault-relative path; `name`,
`basename` and `parent` are derived from it as Obsidian does. -/
structure TFile where
  path : String
deriving DecidableEq, Repr

/-- Obsidian `TFile.name`: the file name with extension. -/
def tfName (f : TFile) : String := lastSeg f.path

/-- Strip the (last-dot) extension from a file name. -/
def dropExt (s : String) : String :=
  if '.' ∈ s.data then
    String.mk (((s.data.reverse.dropWhile (fun c => c ≠ '.')).drop 1).reverse)
  else s

/-- Obsidian `TFile.basename`: the file name without its extension. -/
def tfBasename (f : TFile) : String := dropExt (tfName f)

/-- `FOURSG_OUTPUT_DIR + "/site"`, the generated-site root. -/
def sitePath : String := "obsidian-foursg/site"

/-- `sanitizeDirectoryPath`: sanitize each slash-separated segment
independently. -/
def sanitizeDirectoryPath (dirPath : String) : String :=
  joinSegs ((splitSlash dirPath).map sanitizeFilename)

/-- `getOutputPath`: canonical output path of a document. -/
def getOutputPath (filePath : String) : String :=
  let baseName := basenameExt filePath ".md"
  let dirName := dirname filePath
  let isIndex := jsToLower baseName = "index"
  let outputName := if isIndex then "index" else sanitizeFilename baseName
  if dirName = "." then joinPath [sitePath, outputName ++ ".html"]
  else joinPath [sitePath, sanitizeDirectoryPath dirName, outputName ++ ".html"]

/-- `getImageOutputPath`: directory sanitized, file name kept verbatim. -/
def getImageOutputPath (imagePath : String) : String :=
  let dirName := dirname imagePath
  let fileName := lastSeg imagePath
  if dirName = "." then joinPath [sitePath, fileName]
  else joinPath [sitePath, sanitizeDirectoryPath dirName, fileName]

/-- Length of the longest common prefix of two segment lists. -/
def cpl : List String → List String → Nat
  | a :: as, b :: bs => if a = b then cpl as bs + 1 else 0
  | _, _ => 0

/-- `pathe`'s `relative` for relative slash paths: normalize both
sides, drop the common prefix, climb with `".."` and descend into the
target. -/
def relativeSegs (f t : List String) : List String :=
  List.replicate (f.length - cpl f t) ".." ++ t.drop (cpl f t)

def relativePath (fromP toP : String) : String :=
  let f := normSegs [] (splitSlash fromP)
  let t := normSegs [] (splitSlash toP)
  let rs := relativeSegs f t
  if rs.isEmpty then "" else joinSegs rs

/-- The `replace(/\\/g, '/')` done on every relative path the source
emits. -/
def backslashToSlash (s : String) : String :=
  String.mk (s.data.map (fun c => if c = '\\' then '/' else c))

/-- `getRelativePath`: relative path from the directory containing
`fromPath` to `toPath`. -/
def getRelativePath (fromPath toPath : String) : String :=
  backslashToSlash (relativePath (dirname fromPath) toPath)

/-- Modelled from the spec: resolving an emitted relative link against
the directory that contains the linking page (the spec's
"resolved against A's output location") is the normalized join of the
directory and the relative path. -/
def resolveAgainst (baseDir rel : String) : String := joinPath [baseDir, rel]

/-- A well-behaved path segment: nonempty, not a dot segment, and free
of separators. -/
def goodSeg (s : String) : Bool :=
  !(s = "") && !(s = ".") && !(s = "..") && !(decide ('/' ∈ s.data))
    && !(decide ('\\' ∈ s.data))

/-- The output base name chosen by `getOutputPath`. -/
def outputNameOf (p : String) : String :=
  if jsToLower (basenameExt p ".md") = "index" then "index"
  else sanitizeFilename (basenameExt p ".md")

/-- The normalized segment list of a document's output path. -/
def outSegs (p : String) : List String :=
  normSegs [] (["obsidian-foursg", "site"]
    ++ (splitSlash (dirname p)).map sanitizeFilename
    ++ [outputNameOf p ++ ".html"])

/-- Follows the C4 claim's words: output path = site output directory,
then the source directory with each segment sanitized independently,
then the base name — literally `index` when the source base name is
`index` case-insensitively, the sanitized base name otherwise — with
extension `.html`. -/
def outputPathSpec (p : String) : String :=
  joinPath [sitePath, sanitizeDirectoryPath (dirname p), outputNameOf p ++ ".html"]

/-- `getPageUrl`: output path with the site-root prefix removed. -/
def getPageUrl (outputFilePath : String) : String :=
  backslashToSlash
    (String.mk (replaceFirstCh (sitePath ++ "/").data [] outputFilePath.data))

/-! ### Reference resolution (`findTargetFile`, `findImageFile`) -/

/-- Strip one trailing `".md"` (the `linkName.replace(/\.md$/, '')`). -/
def stripMdSuffix (s : String) : String :=
  if endsWithCh s.data ".md".data then String.mk (s.data.take (s.data.length - 3))
  else s

/-- First loop of `findTargetFile`: first file whose path equals the
cleaned link plus `".md"`, or the cleaned link itself. -/
def pathLoop : List TFile → String → Option TFile
  | [], _ => none
  | f :: rest, cleanLink =>
    if f.path = cleanLink ++ ".md" ∨ f.path = cleanLink then some f
    else pathLoop rest cleanLink

/-- Second loop of `findTargetFile`: first file whose base name equals
the cleaned link. -/
def baseLoop : List TFile → String → Option TFile
  | [], _ => none
  | f :: rest, cleanLink =>
    if tfBasename f = cleanLink then some f else baseLoop rest cleanLink

/-- `findTargetFile` over the filtered markdown list. -/
def findTargetFile (files : List TFile) (linkName : String) : Option TFile :=
  let cleanLink := stripMdSuffix linkName
  match pathLoop files cleanLink with
  | some f => some f
  | none => baseLoop files cleanLink

/-- `findImageFile`: first image whose path, name or base name equals
the reference. -/
def findImageFile (imageFiles : List TFile) (imageName : String) : Option TFile :=
  imageFiles.find? fun f =>
    f.path = imageName || tfName f = imageName || tfBasename f = imageName

/-- Follows the claim's words for C5 (`findDocument`): strip a trailing
`.md`, then the first document in index order whose source path equals
the cleaned reference or the cleaned reference plus `.md`; only when no
such document exists, the first document whose base name equals the
cleaned reference; otherwise none. -/
def findDocumentSpec (files : List TFile) (reference : String) : Option TFile :=
  let cleaned :=
    if endsWithCh reference.data ".md".data then
      String.mk (reference.data.take (reference.data.length - 3))
    else reference
  match files.find? (fun f => f.path = cleaned || f.path = cleaned ++ ".md") with
  | some f => some f
  | none => files.find? (fun f => tfBasename f = cleaned)

/-! ### Link rewriting (`convertWikiLinks`, `convertImageEmbeds`) -/

/-- Split off the bracketed content: `(l.takeWhile (· ≠ ']'), l.dropWhile ...)`
written as one recursion. -/
def splitAtRB : List Char → List Char × List Char
  | [] => ([], [])
  | c :: rest =>
    if c = ']' then ([], c :: rest)
    else
      let p := splitAtRB rest
      (c :: p.1, p.2)

theorem splitAtRB_snd_length (l : List Char) : (splitAtRB l).2.length ≤ l.length := by
  induction l with
  | nil => simp [splitAtRB]
  | cons c rest ih =>
    simp only [splitAtRB]
    split
    · simp
    · simpa using Nat.le_succ_of_le ih

/-- Regex body of `\[\[([^\]]+)\]\]` after the opening brackets: the
(nonempty) run of non-`]` characters must be followed by `]]`; returns
the content and the rest of the input. -/
def findWikiMatch (l : List Char) : Option (List Char × List Char) :=
  if (splitAtRB l).1.isEmpty then none
  else if 2 ≤ (splitAtRB l).2.length ∧ (splitAtRB l).2.take 2 = [']', ']'] then
    some ((splitAtRB l).1, (splitAtRB l).2.drop 2)
  else none

theorem findWikiMatch_length {l : List Char} {c r : List Char}
    (h : findWikiMatch l = some (c, r)) : r.length < l.length := by
  have hlen := splitAtRB_snd_length l
  unfold findWikiMatch at h
  split_ifs at h with h1 h2
  have h3 := h2.1
  have h4 : ((splitAtRB l).2.drop 2).length = (splitAtRB l).2.length - 2 :=
    List.length_drop ..
  simp only [Option.some.injEq, Prod.mk.injEq] at h
  rw [← h.2]
  omega

/-- The scanning pass of `content.replace(/(?<!!)\[\[([^\]]+)\]\]/g, ...)`:
walk the characters, keeping the previous original character for the
`(?<!!)` look-behind, and splice in `repl content` at each match.  When
a match attempt fails, the scan moves on by one character, as the
global regex does. -/
def wikiScan (repl : String → String) (prev : Option Char) (l : List Char) : List Char :=
  match l with
  | [] => []
  | c :: rest =>
    if c = '[' ∧ rest.head? = some '[' ∧ prev ≠ some '!' then
      match h : findWikiMatch rest.tail with
      | some (content, rest') =>
        (repl (String.mk content)).data ++ wikiScan repl (some ']') rest'
      | none => c :: wikiScan repl (some c) rest
    else c :: wikiScan repl (some c) rest
  termination_by l.length
  decreasing_by
    · rcases rest with _ | ⟨r0, rest0⟩
      · simp [findWikiMatch, splitAtRB] at h
      · have := findWikiMatch_length h
        simp only [List.tail_cons] at this
        simp only [List.length_cons]
        omega
    · simp
    · simp

/-- The scanning pass of `content.replace(/!\[\[([^\]]+)\]\]/g, ...)`. -/
def imgScan (repl : String → String) (l : List Char) : List Char :=
  match l with
  | [] => []
  | c :: rest =>
    if c = '!' ∧ rest.head? = some '[' ∧ rest.tail.head? = some '[' then
      match h : findWikiMatch rest.tail.tail with
      | some (content, rest') =>
        (repl (String.mk content)).data ++ imgScan repl rest'
      | none => c :: imgScan repl rest
    else c :: imgScan repl rest
  termination_by l.length
  decreasing_by
    · have h1 := findWikiMatch_length h
      have h2 : rest.tail.tail.length ≤ rest.length := by
        rcases rest with _ | ⟨r0, rest0⟩
        · simp
        · rcases rest0 with _ | ⟨r1, rest1⟩ <;> simp <;> omega
      simp only [List.length_cons]
      omega
    · simp
    · simp

/-- The previous-character tracker after consuming a list: the list's
last character, or the incoming value when the list is empty. -/
def lastOr (prev : Option Char) : List Char → Option Char
  | [] => prev
  | c :: rest => lastOr (some c) rest

/-- Split at `'|'` (JS `linkText.split('|')`). -/
def splitPipe (s : String) : List String :=
  (splitCh '|' s.data).map String.mk

/-- The replacement callback of `convertWikiLinks`: split off an
optional display label, resolve the target, and emit standard link
markup — `#broken-link` when the target does not resolve. -/
def wikiRepl (files : List TFile) (file : TFile) (linkText : String) : String :=
  let parts := splitPipe linkText
  let link := jsTrim (parts.headD "")
  let displayText :=
    match parts.drop 1 with
    | [] => link
    | d :: _ => if d = "" then link else jsTrim d
  match findTargetFile files link with
  | none => "[" ++ displayText ++ "](#broken-link)"
  | some targetFile =>
    let targetOutputPath := getOutputPath targetFile.path
    let currentOutputPath := getOutputPath file.path
    "[" ++ displayText ++ "](" ++ getRelativePath currentOutputPath targetOutputPath ++ ")"

/-- `convertWikiLinks` on a document body. -/
def convertWikiLinks (files : List TFile) (file : TFile) (content : String) : String :=
  String.mk (wikiScan (wikiRepl files file) none content.data)

/-- The replacement callback of `convertImageEmbeds`. -/
def imgRepl (imageFiles : List TFile) (file : TFile) (imagePath : String) : String :=
  match findImageFile imageFiles imagePath with
  | none => "![" ++ imagePath ++ "](#broken-image)"
  | some imageFile =>
    let currentOutputPath := getOutputPath file.path
    let imageOutputPath := getImageOutputPath imageFile.path
    "![](" ++ getRelativePath currentOutputPath imageOutputPath ++ ")"

/-- `convertImageEmbeds` on a document body. -/
def convertImageEmbeds (imageFiles : List TFile) (file : TFile) (content : String) : String :=
  String.mk (imgScan (imgRepl imageFiles file) content.data)

/-! ### Sitemap (`SitemapGenerator.ts` and the `addUrl` call site) -/

/-- One sitemap entry.  The TypeScript interface types `changefreq` as a
string-literal union and `priority` as `number`; at run time both are
whatever the front-matter supplied, so they are modelled as `String`
and `ℚ`. -/
structure SitemapUrl where
  loc : String
  lastmod : Option String := none
  changefreq : Option String := none
  priority : Option ℚ := none
deriving DecidableEq, Repr

/-- `getChangeFreq`. -/
def getChangeFreq (filePath : String) : String :=
  if jsToLower (basenameExt filePath ".md") = "index" then "weekly" else "monthly"

/-- `getPriority`. -/
def getPriority (filePath : String) : ℚ :=
  if jsToLower (basenameExt filePath ".md") = "index" then
    if (splitSlash filePath).length = 1 then 1 else 8 / 10
  else 6 / 10

/-- The front-matter keys that feed the sitemap entry; `none` models an
absent key. -/
structure FrontMatter where
  changefreq : Option String := none
  priority : Option ℚ := none
deriving DecidableEq, Repr

/-- The entry built in `wrapInTemplate` and handed to
`sitemapGenerator.addUrl`: `frontMatter.changefreq || getChangeFreq(...)`
(JS `||`, so an empty string also falls back) and
`frontMatter.priority !== undefined ? frontMatter.priority : getPriority(...)`. -/
def sitemapEntryFor (frontMatter : FrontMatter) (filePath : String)
    (lastmod : String) : SitemapUrl where
  loc := getPageUrl (getOutputPath filePath)
  lastmod := some lastmod
  changefreq := some <|
    match frontMatter.changefreq with
    | some s => if s = "" then getChangeFreq filePath else s
    | none => getChangeFreq filePath
  priority := some <|
    match frontMatter.priority with
    | some q => q
    | none => getPriority filePath

/-- `escapeXml`. -/
def escChar (c : Char) : List Char :=
  if c = '&' then "&amp;".data
  else if c = '<' then "&lt;".data
  else if c = '>' then "&gt;".data
  else if c = '"' then "&quot;".data
  else if c = '\'' then "&apos;".data
  else [c]

def escapeXml (s : String) : String := String.mk (concatMap escChar s.data)

/-- Digits of a natural number (JS number-to-string for integers); the
first argument is structural fuel, always sufficient at `n + 1`. -/
def natToStrAux : ℕ → ℕ → String
  | 0, _ => ""
  | fuel + 1, n =>
    if n < 10 then String.mk [Char.ofNat (48 + n)]
    else natToStrAux fuel (n / 10) ++ String.mk [Char.ofNat (48 + n % 10)]

def natToStr (n : ℕ) : String := natToStrAux (n + 1) n

/-- `Number.prototype.toFixed(1)` on the rationals the generator feeds
it: one digit after the decimal point, rounding to nearest. -/
def toFixed1 (q : ℚ) : String :=
  let n : ℤ := round (q * 10)
  let sign := if n < 0 then "-" else ""
  let a := n.natAbs
  sign ++ natToStr (a / 10) ++ "." ++ natToStr (a % 10)

/-- The `SitemapGenerator` constructor strips one trailing slash from
the hostname. -/
def sitemapHostname (h : String) : String :=
  if endsWithCh h.data "/".data then String.mk (h.data.take (h.data.length - 1))
  else h

/-- `generateUrlEntry`: only `<loc>` is passed through `escapeXml`. -/
def generateUrlEntry (hostname : String) (url : SitemapUrl) : String :=
  let loc := hostname ++ (if startsWithCh "/".data url.loc.data then "" else "/") ++ url.loc
  let e1 := "  <url>\n    <loc>" ++ escapeXml loc ++ "</loc>"
  let e2 := e1 ++
    match url.lastmod with
    | some lm => "\n    <lastmod>" ++ lm ++ "</lastmod>"
    | none => ""
  let e3 := e2 ++
    match url.changefreq with
    | some cf => "\n    <changefreq>" ++ cf ++ "</changefreq>"
    | none => ""
  let e4 := e3 ++
    match url.priority with
    | some pr => "\n    <priority>" ++ toFixed1 pr ++ "</priority>"
    | none => ""
  e4 ++ "\n  </url>"

/-- `toXml` for an accumulated list of urls (the generator's mutable
`urls` array, in accumulation order). -/
def sitemapToXml (rawHostname : String) (urls : List SitemapUrl) : String :=
  let hostname := sitemapHostname rawHostname
  "<?xml version=\"1.0\" encoding=\"UTF-8\"?>\n<urlset xmlns=\"http://www.sitemaps.org/schemas/sitemap/0.9\">\n"
  ++ strIntercalate "\n" (urls.map (generateUrlEntry hostname)) ++ "\n</urlset>"

/-- Follows the original C8 claim's words: entries in accumulation
order, `<loc>` fully qualified, priority to one decimal place, and all
emitted text values — loc, lastmod, changefreq and priority — XML
escaped. -/
def urlEntryAllEscaped (hostname : String) (url : SitemapUrl) : String :=
  let loc := hostname ++ (if startsWithCh "/".data url.loc.data then "" else "/") ++ url.loc
  strIntercalate "\n"
    (["  <url>", "    <loc>" ++ escapeXml loc ++ "</loc>"]
      ++ (match url.lastmod with
          | some lm => ["    <lastmod>" ++ escapeXml lm ++ "</lastmod>"]
          | none => [])
      ++ (match url.changefreq with
          | some cf => ["    <changefreq>" ++ escapeXml cf ++ "</changefreq>"]
          | none => [])
      ++ (match url.priority with
          | some pr => ["    <priority>" ++ escapeXml (toFixed1 pr) ++ "</priority>"]
          | none => [])
      ++ ["  </url>"])

def toXmlAllEscapedSpec (rawHostname : String) (urls : List SitemapUrl) : String :=
  let hostname := sitemapHostname rawHostname
  "<?xml version=\"1.0\" encoding=\"UTF-8\"?>\n<urlset xmlns=\"http://www.sitemaps.org/schemas/sitemap/0.9\">\n"
  ++ strIntercalate "\n" (urls.map (urlEntryAllEscaped hostname)) ++ "\n</urlset>"

/-- Follows the amended C8 claim's words: entries serialized in
accumulation order; each `<loc>` prefixed with the configured base URL
and then XML-escaped; priority formatted to one decimal place; lastmod
and changefreq emitted verbatim. -/
def urlEntrySpec (hostname : String) (url : SitemapUrl) : String :=
  let loc := hostname ++ (if startsWithCh "/".data url.loc.data then "" else "/") ++ url.loc
  strIntercalate "\n"
    (["  <url>", "    <loc>" ++ escapeXml loc ++ "</loc>"]
      ++ (match url.lastmod with
          | some lm => ["    <lastmod>" ++ lm ++ "</lastmod>"]
          | none => [])
      ++ (match url.changefreq with
          | some cf => ["    <changefreq>" ++ cf ++ "</changefreq>"]
          | none => [])
      ++ (match url.priority with
          | some pr => ["    <priority>" ++ toFixed1 pr ++ "</priority>"]
          | none => [])
      ++ ["  </url>"])

def toXmlSpec (rawHostname : String) (urls : List SitemapUrl) : String :=
  let hostname := sitemapHostname rawHostname
  "<?xml version=\"1.0\" encoding=\"UTF-8\"?>\n<urlset xmlns=\"http://www.sitemaps.org/schemas/sitemap/0.9\">\n"
  ++ strIntercalate "\n" (urls.map (urlEntrySpec hostname)) ++ "\n</urlset>"

/-! ### Two-tier recursive directory removal (`removeDirectoryRecursive`)

The Obsidian `DataAdapter` is an external collaborator; it is modelled
as a record of state-passing operations over an abstract state `σ`
that may fail with an error of type `ε`.  `exists` is modelled total
(the source calls it before the guarded block). -/

structure DataAdapter (σ ε : Type) where
  adExists : σ → String → Bool
  adList : σ → String → Except ε (List String × List String) × σ
  adRemove : σ → String → Except ε Unit × σ
  adRmdir : σ → String → Bool → Except ε Unit × σ

/-- `for (const file of items.files) await this.dataAdapter.remove(file)`:
sequential removal, stopping at the first error. -/
def removeAll (A : DataAdapter σ ε) : σ → List String → Except ε Unit × σ
  | s, [] => (Except.ok (), s)
  | s, f :: fs =>
    match A.adRemove s f with
    | (Except.ok _, s') => removeAll A s' fs
    | (Except.error e, s') => (Except.error e, s')

mutual

/-- `removeDirectoryRecursive`: recursion is bounded by explicit fuel
(`none` = ran out of fuel; the TypeScript recursion is bounded by the
finite directory tree). -/
def removeDirRec (A : DataAdapter σ ε) : ℕ → σ → String → Option (Except ε Unit × σ)
  | 0, _, _ => none
  | fuel + 1, s, dirPath =>
    if A.adExists s dirPath = false then some (Except.ok (), s)
    else
      match tryPart A fuel s dirPath with
      | none => none
      | some (Except.ok _, s') => some (Except.ok (), s')
      | some (Except.error e, s') =>
        match A.adRemove s' dirPath with
        | (Except.ok _, s'') => some (Except.ok (), s'')
        | (Except.error _, s'') => some (Except.error e, s'')

/-- The `try` block of `removeDirectoryRecursive`: list the directory,
remove every file, recurse into every folder, then `rmdir` the
now-empty directory; the first error aborts the block. -/
def tryPart (A : DataAdapter σ ε) : ℕ → σ → String → Option (Except ε Unit × σ)
  | fuel, s, dirPath =>
    match A.adList s dirPath with
    | (Except.error e, s1) => some (Except.error e, s1)
    | (Except.ok (files, folders), s1) =>
      match removeAll A s1 files with
      | (Except.error e, s2) => some (Except.error e, s2)
      | (Except.ok _, s2) =>
        match recurseAll A fuel s2 folders with
        | none => none
        | some (Except.error e, s3) => some (Except.error e, s3)
        | some (Except.ok _, s3) => some (A.adRmdir s3 dirPath false)

/-- Recurse into each sub-folder in order, stopping at the first
error. -/
def recurseAll (A : DataAdapter σ ε) : ℕ → σ → List String → Option (Except ε Unit × σ)
  | _, s, [] => some (Except.ok (), s)
  | fuel, s, d :: ds =>
    match removeDirRec A fuel s d with
    | none => none
    | some (Except.error e, s') => some (Except.error e, s')
    | some (Except.ok _, s') => recurseAll A fuel s' ds

end

/-- A concrete adapter for the C9 witness: listing always fails with
`"listfail"`, plain removal always fails with `"removefail"`. -/
def witAdapter : DataAdapter Unit String where
  adExists := fun _ _ => true
  adList := fun s _ => (Except.error "listfail", s)
  adRemove := fun s _ => (Except.error "removefail", s)
  adRmdir := fun s _ _ => (Except.ok (), s)

/-! ### Navigation tree (`buildNavigationTree`) -/

/-- One navigation node: display name, source path, output path (empty
until assigned), children, index flag. -/
inductive NavNode where
  | mk : String → String → String → List NavNode → Bool → NavNode

def NavNode.name : NavNode → String
  | .mk n _ _ _ _ => n

def NavNode.path : NavNode → String
  | .mk _ p _ _ _ => p

def NavNode.outputPath : NavNode → String
  | .mk _ _ o _ _ => o

def NavNode.children : NavNode → List NavNode
  | .mk _ _ _ cs _ => cs

def NavNode.isIndex : NavNode → Bool
  | .mk _ _ _ _ i => i

mutual

/-- Mutating `dirMap.get(target).children.push(child)` through the
shared node reference, rendered structurally: append `child` to the
children of every node whose path is `target` (the builder keeps node
paths unique, so at most one node matches). -/
def pushAtNode (target : String) (child : NavNode) : NavNode → NavNode
  | .mk n p o cs i =>
    if p = target then .mk n p o (pushAtForest target child cs ++ [child]) i
    else .mk n p o (pushAtForest target child cs) i

def pushAtForest (target : String) (child : NavNode) : List NavNode → List NavNode
  | [] => []
  | x :: xs => pushAtNode target child x :: pushAtForest target child xs

end

mutual

/-- Mutating `dirNode.outputPath = ...; dirNode.isIndex = true` through
the shared node reference, rendered structurally. -/
def setAtNode (target outPath : String) : NavNode → NavNode
  | .mk n p o cs i =>
    if p = target then .mk n p outPath (setAtForest target outPath cs) true
    else .mk n p o (setAtForest target outPath cs) i

def setAtForest (target outPath : String) : List NavNode → List NavNode
  | [] => []
  | x :: xs => setAtNode target outPath x :: setAtForest target outPath xs

end

/-- The inner loop of `buildNavigationTree` over the directory segments
of one file: create (or reuse, keyed by cumulative path) the synthetic
folder node for each segment.  Returns the updated forest, the updated
key set of `dirMap`, and the final cumulative path. -/
def ensureChain : List String → String → List NavNode → List String →
    List NavNode × List String × String
  | [], parentPath, forest, created => (forest, created, parentPath)
  | seg :: rest, parentPath, forest, created =>
    let curPath := if parentPath = "" then seg else parentPath ++ "/" ++ seg
    let st :=
      if curPath ∈ created then (forest, created)
      else
        let dirNode := NavNode.mk seg curPath "" [] false
        if parentPath = "" then (forest ++ [dirNode], created ++ [curPath])
        else (pushAtForest parentPath dirNode forest, created ++ [curPath])
    ensureChain rest curPath st.1 st.2

/-- Is this document an index document (`file.basename.toLowerCase()
=== 'index'`)? -/
def isIdxDoc (f : TFile) : Bool := jsToLower (tfBasename f) = "index"

/-- Processing of one (sorted) file inside `buildNavigationTree`. -/
def navStep (st : List NavNode × List String) (f : TFile) :
    List NavNode × List String :=
  let parts := splitSlash f.path
  let isIdx := isIdxDoc f
  if parts.length = 1 then
    (st.1 ++ [NavNode.mk (tfBasename f) f.path (getOutputPath f.path) [] isIdx], st.2)
  else
    let r := ensureChain parts.dropLast "" st.1 st.2
    if isIdx then (setAtForest r.2.2 (getOutputPath f.path) r.1, r.2.1)
    else
      (pushAtForest r.2.2
        (NavNode.mk (tfBasename f) f.path (getOutputPath f.path) [] false) r.1,
       r.2.1)

/-- Stable insertion sort on paths, modelling
`files.sort((a, b) => a.path.localeCompare(b.path))` with the
lexicographic character order. -/
def leChars : List Char → List Char → Bool
  | [], _ => true
  | _ :: _, [] => false
  | a :: as, b :: bs => if a = b then leChars as bs else decide (a < b)

def insertFile (f : TFile) : List TFile → List TFile
  | [] => [f]
  | g :: gs =>
    if leChars f.path.data g.path.data then f :: g :: gs else g :: insertFile f gs

def sortFiles (files : List TFile) : List TFile := files.foldr insertFile []

/-- `buildNavigationTree` over the filtered markdown list. -/
def buildNavigationTree (files : List TFile) : List NavNode :=
  ((sortFiles files).foldl navStep ([], [])).1

/-- A skeleton entry: the chain of ancestor node paths from a root down
to a node, the node's own path, and its output path. -/
abbrev SkelEntry := List String × String × String

mutual

def skelNode (anc : List String) : NavNode → List SkelEntry
  | .mk _ p o cs _ => (anc, p, o) :: skelForest (anc ++ [p]) cs

def skelForest (anc : List String) : List NavNode → List SkelEntry
  | [] => []
  | x :: xs => skelNode anc x ++ skelForest anc xs

end

/-- All skeleton entries of a forest, each with its root-to-node
ancestor chain. -/
def skel (forest : List NavNode) : List SkelEntry := skelForest [] forest

/-- The cumulative ancestor-directory paths of a segment list:
`[s1, s1/s2, ...]`, excluding the full path itself. -/
def ancList (segs : List String) : List String :=
  (List.range (segs.length - 1)).map (fun i => joinSegs (segs.take (i + 1)))

/-- Ancestor-directory paths of a document path. -/
def cumDirs (p : String) : List String := ancList (splitSlash p)

/-- The C7 claim at one input set: the navigation tree contains exactly
one node whose output path is the document's output path, and the
chain from a root node down to it consists only of folder nodes for
the document's ancestor directories (its path list is an initial
segment of the document's ancestor-directory list). -/
def NavComplete (files : List TFile) : Prop :=
  ∀ d ∈ files,
    (((skel (buildNavigationTree files)).filter
        (fun e => e.2.2 = getOutputPath d.path)).length = 1)
    ∧ ∀ e ∈ skel (buildNavigationTree files),
        e.2.2 = getOutputPath d.path → e.1 = (cumDirs d.path).take e.1.length

instance (files : List TFile) : Decidable (NavComplete files) := by
  unfold NavComplete
  infer_instance

/-! Proof-side bookkeeping for the navigation-tree argument. -/

/-- Entry update performed by `setAtForest` on the skeleton. -/
def updEntry (target outPath : String) (e : SkelEntry) : SkelEntry :=
  if e.2.1 = target then (e.1, e.2.1, outPath) else e

/-- All ancestor-directory paths of a batch of documents. -/
def allPrefixes (done : List TFile) : List String :=
  concatMap (fun d => cumDirs d.path) done

/-- The source folder path of a document, as the navigation builder
computes it. -/
def navDirOf (d : TFile) : String := joinSegs (splitSlash d.path).dropLast

/-- Does the navigation builder attach this document as a leaf (rather
than assigning it onto its folder node)? -/
def leafKeep (d : TFile) : Bool :=
  !(isIdxDoc d && decide (2 ≤ (splitSlash d.path).length))

/-- Is `d` an index document that assigns its output path onto the
folder node for `c`? -/
def idxPred (c : String) (d : TFile) : Bool :=
  isIdxDoc d && decide (2 ≤ (splitSlash d.path).length) && decide (navDirOf d = c)

/-- The output path assigned onto the folder node for `c` by the index
documents of the batch (empty when none). -/
def idxOut (done : List TFile) (c : String) : String :=
  match done.find? (idxPred c) with
  | some d => getOutputPath d.path
  | none => ""

/-- The skeleton entry of the folder node for `c`. -/
def dirEntry (done : List TFile) (c : String) : SkelEntry :=
  (ancList (splitSlash c), c, idxOut done c)

/-- The skeleton entry of the leaf node for a document. -/
def leafEntry (d : TFile) : SkelEntry :=
  (cumDirs d.path, d.path, getOutputPath d.path)

/-- The cumulative paths of a segment list, including the full path. -/
def chainPaths (segs : List String) : List String :=
  (List.range segs.length).map (fun i => joinSegs (segs.take (i + 1)))

/-- The `parentPath` value that corresponds to having consumed `pre`. -/
def parentOf (pre : List String) : String :=
  if pre = [] then "" else joinSegs pre

/-! ## Theorems -/

/-! ### Basic facts about the sanitizer -/

theorem mem_collapseSpAux {c : Char} :
    ∀ {l : List Char} {b : Bool}, c ∈ collapseSpAux b l →
      c = '-' ∨ (c ∈ l ∧ c ≠ ' ') := by
  intro l
  induction l with
  | nil => intro b hc; simp [collapseSpAux] at hc
  | cons c0 rest ih =>
    intro b hc
    unfold collapseSpAux at hc
    by_cases h0 : c0 = ' '
    · rw [if_pos h0] at hc
      have hmem : c ∈ collapseSpAux true rest ∨ c = '-' := by
        cases b with
        | true => rw [if_pos rfl] at hc; exact Or.inl hc
        | false =>
          rw [if_neg (by simp)] at hc
          rcases List.mem_cons.mp hc with h | h
          · exact Or.inr h
          · exact Or.inl h
      rcases hmem with h | h
      · rcases ih h with h' | ⟨h1, h2⟩
        · exact Or.inl h'
        · exact Or.inr ⟨List.mem_cons_of_mem _ h1, h2⟩
      · exact Or.inl h
    · rw [if_neg h0] at hc
      rcases List.mem_cons.mp hc with h | h
      · exact Or.inr ⟨h ▸ List.mem_cons_self _ _, h ▸ h0⟩
      · rcases ih h with h' | ⟨h1, h2⟩
        · exact Or.inl h'
        · exact Or.inr ⟨List.mem_cons_of_mem _ h1, h2⟩

theorem mem_collapseSp {c : Char} {l : List Char} (hc : c ∈ collapseSp l) :
    c = '-' ∨ (c ∈ l ∧ c ≠ ' ') :=
  mem_collapseSpAux hc

theorem collapseSpAux_eq_self :
    ∀ {l : List Char}, (∀ c ∈ l, c ≠ ' ') → ∀ b, collapseSpAux b l = l := by
  intro l
  induction l with
  | nil => intro _ _; rfl
  | cons c rest ih =>
    intro h b
    unfold collapseSpAux
    rw [if_neg (h c (List.mem_cons_self _ _))]
    exact congrArg _ (ih (fun c hc => h c (List.mem_cons_of_mem _ hc)) false)

theorem collapseSp_eq_self {l : List Char} (h : ∀ c ∈ l, c ≠ ' ') :
    collapseSp l = l :=
  collapseSpAux_eq_self h false

theorem dropWhileSp_eq_self {l : List Char} (h : ∀ c ∈ l, c ≠ ' ') :
    l.dropWhile (· = ' ') = l := by
  cases l with
  | nil => rfl
  | cons c rest =>
    rw [List.dropWhile_cons]
    simp [h c (List.mem_cons_self _ _)]

theorem trimSp_eq_self {l : List Char} (h : ∀ c ∈ l, c ≠ ' ') : trimSp l = l := by
  unfold trimSp
  rw [dropWhileSp_eq_self h,
    dropWhileSp_eq_self (fun c hc => h c (List.mem_reverse.mp hc)),
    List.reverse_reverse]

theorem mem_trimSp {c : Char} {l : List Char} (h : c ∈ trimSp l) : c ∈ l := by
  unfold trimSp at h
  have h1 := List.mem_reverse.mp h
  have h2 : c ∈ (l.dropWhile (· = ' ')).reverse :=
    List.Sublist.mem h1 (List.dropWhile_sublist _)
  exact List.Sublist.mem (List.mem_reverse.mp h2) (List.dropWhile_sublist _)

/-- Every character of a sanitized segment is a lower-case ASCII
letter, a digit, or a hyphen. -/
theorem mem_sanitizeFilename {c : Char} {s : String}
    (hc : c ∈ (sanitizeFilename s).data) :
    (isLowerAZ c || isDigitCh c || c = '-') = true := by
  unfold sanitizeFilename at hc
  rcases mem_collapseSp hc with h | ⟨h1, h2⟩
  · simp [h, isLowerAZ, isDigitCh]
  · have h3 : c ∈ (s.data.map jsCharLower).filter sanitizeKeep := mem_trimSp h1
    have hk := List.of_mem_filter h3
    unfold sanitizeKeep at hk
    rcases Bool.or_eq_true_iff.mp hk with hk' | hsp
    · simpa using hk'
    · exact absurd (by simpa using hsp) h2

theorem jsCharLower_fixed {c : Char}
    (h : (isLowerAZ c || isDigitCh c || c = '-') = true) : jsCharLower c = c := by
  cases hB : isUpperAZ c with
  | false => simp [jsCharLower, hB]
  | true =>
    exfalso
    unfold isUpperAZ at hB
    simp only [Bool.and_eq_true, decide_eq_true_eq] at hB
    unfold isLowerAZ isDigitCh at h
    simp only [Bool.or_eq_true, Bool.and_eq_true, decide_eq_true_eq] at h
    rcases h with (⟨h1, h2⟩ | ⟨h1, h2⟩) | h1
    · omega
    · omega
    · rw [h1] at hB
      revert hB
      decide

/-- Claim C6: `sanitizeSegment` is idempotent. -/
theorem c6_sanitize_idempotent (s : String) :
    sanitizeFilename (sanitizeFilename s) = sanitizeFilename s := by
  have hall : ∀ c ∈ (sanitizeFilename s).data,
      (isLowerAZ c || isDigitCh c || c = '-') = true :=
    fun c hc => mem_sanitizeFilename hc
  have hmap : (sanitizeFilename s).data.map jsCharLower = (sanitizeFilename s).data := by
    have h := List.map_congr_left
      (f := jsCharLower) (g := id) (h := fun c hc => jsCharLower_fixed (hall c hc))
    simpa using h
  have hnosp : ∀ c ∈ (sanitizeFilename s).data, c ≠ ' ' := by
    intro c hc hsp
    have := hall c hc
    subst hsp
    simp [isLowerAZ, isDigitCh] at this
  have hfil : (sanitizeFilename s).data.filter sanitizeKeep = (sanitizeFilename s).data := by
    rw [List.filter_eq_self]
    intro c hc
    have h := hall c hc
    unfold sanitizeKeep
    rcases Bool.or_eq_true_iff.mp h with h' | h'
    · rcases Bool.or_eq_true_iff.mp h' with h'' | h'' <;> simp [h'']
    · simp [h']
  show String.mk
      (collapseSp (trimSp (((sanitizeFilename s).data.map jsCharLower).filter sanitizeKeep)))
    = sanitizeFilename s
  rw [hmap, hfil, trimSp_eq_self hnosp, collapseSp_eq_self hnosp]

/-! ### Document lookup (C5) -/

theorem pathLoop_eq_find (files : List TFile) (clean : String) :
    pathLoop files clean
      = files.find? (fun f => f.path = clean || f.path = clean ++ ".md") := by
  induction files with
  | nil => rfl
  | cons f rest ih =>
    unfold pathLoop
    rw [List.find?_cons]
    by_cases h1 : f.path = clean ++ ".md" <;> by_cases h2 : f.path = clean <;>
      simp [h1, h2, ih]

theorem baseLoop_eq_find (files : List TFile) (clean : String) :
    baseLoop files clean = files.find? (fun f => tfBasename f = clean) := by
  induction files with
  | nil => rfl
  | cons f rest ih =>
    unfold baseLoop
    rw [List.find?_cons]
    by_cases h1 : tfBasename f = clean <;> simp [h1, ih]

/-- Claim C5: document lookup strips a trailing `.md`, then returns the
first document (in index order) matching on source path (the cleaned
reference, or the cleaned reference plus `.md`); only when no such
document exists, the first document whose base name equals the cleaned
reference; otherwise none. -/
theorem c5_find_document_policy (files : List TFile) (reference : String) :
    findTargetFile files reference = findDocumentSpec files reference := by
  unfold findTargetFile findDocumentSpec stripMdSuffix
  simp only [pathLoop_eq_find, baseLoop_eq_find]

/-! ### Sitemap defaults (C3) -/

/-- Claim C3: a processed document with no `priority` and no
`changefreq` front-matter key gets priority `1.0` / changefreq
`weekly` when it is an index document at depth 1 (the content root),
priority `0.8` / `weekly` when it is an index document at deeper
depth, and priority `0.6` / `monthly` otherwise. -/
theorem c3_sitemap_defaults (filePath lastmod : String) :
    ((jsToLower (basenameExt filePath ".md") = "index"
        ∧ (splitSlash filePath).length = 1) →
      (sitemapEntryFor {} filePath lastmod).priority = some 1
      ∧ (sitemapEntryFor {} filePath lastmod).changefreq = some "weekly")
    ∧ ((jsToLower (basenameExt filePath ".md") = "index"
        ∧ (splitSlash filePath).length ≠ 1) →
      (sitemapEntryFor {} filePath lastmod).priority = some (8 / 10)
      ∧ (sitemapEntryFor {} filePath lastmod).changefreq = some "weekly")
    ∧ (jsToLower (basenameExt filePath ".md") ≠ "index" →
      (sitemapEntryFor {} filePath lastmod).priority = some (6 / 10)
      ∧ (sitemapEntryFor {} filePath lastmod).changefreq = some "monthly") := by
  refine ⟨fun h => ?_, fun h => ?_, fun h => ?_⟩ <;>
    simp only [sitemapEntryFor, getPriority, getChangeFreq]
  · rw [if_pos h.1, if_pos h.1, if_pos h.2]
    exact ⟨rfl, rfl⟩
  · rw [if_pos h.1, if_pos h.1, if_neg h.2]
    exact ⟨rfl, rfl⟩
  · rw [if_neg h, if_neg h]
    exact ⟨rfl, rfl⟩

theorem c3_sitemap_defaults_witness :
    (sitemapEntryFor {} "index.md" "2024-01-01").priority = some 1
    ∧ (sitemapEntryFor {} "index.md" "2024-01-01").changefreq = some "weekly"
    ∧ (sitemapEntryFor {} "blog/index.md" "2024-01-01").priority = some (8 / 10)
    ∧ (sitemapEntryFor {} "blog/post.md" "2024-01-01").priority = some (6 / 10)
    ∧ (sitemapEntryFor {} "blog/post.md" "2024-01-01").changefreq = some "monthly" := by
  have h1 := (c3_sitemap_defaults "index.md" "2024-01-01").1 (by decide)
  have h2 := ((c3_sitemap_defaults "blog/index.md" "2024-01-01").2.1 (by decide)).1
  have h3 := (c3_sitemap_defaults "blog/post.md" "2024-01-01").2.2 (by decide)
  exact ⟨h1.1, h1.2, h2, h3.1, h3.2⟩

/-! ### Two-tier directory removal (C9) -/

/-- Claim C9: directory removal succeeds without doing anything when
the directory does not exist; otherwise it runs the structured
recursive delete, and if that raises an error it attempts exactly one
non-recursive removal of the target path — succeeding silently when
that works, and propagating the original (first) error when the second
attempt also fails. -/
theorem c9_remove_directory_fallback {σ ε : Type} (A : DataAdapter σ ε) (fuel : ℕ)
    (s : σ) (dirPath : String) :
    (A.adExists s dirPath = false →
      removeDirRec A (fuel + 1) s dirPath = some (Except.ok (), s))
    ∧ (∀ e s', A.adExists s dirPath = true →
        tryPart A fuel s dirPath = some (Except.error e, s') →
        (∀ s'', A.adRemove s' dirPath = (Except.ok (), s'') →
          removeDirRec A (fuel + 1) s dirPath = some (Except.ok (), s''))
        ∧ (∀ e2 s'', A.adRemove s' dirPath = (Except.error e2, s'') →
          removeDirRec A (fuel + 1) s dirPath = some (Except.error e, s'')))
    ∧ (∀ s', A.adExists s dirPath = true →
        tryPart A fuel s dirPath = some (Except.ok (), s') →
        removeDirRec A (fuel + 1) s dirPath = some (Except.ok (), s')) := by
  refine ⟨fun hex => ?_, fun e s' hex htry => ⟨fun s'' hrem => ?_, fun e2 s'' hrem => ?_⟩,
    fun s' hex htry => ?_⟩ <;>
      unfold removeDirRec
  · rw [if_pos hex]
  · rw [if_neg (by simp [hex]), htry]
    dsimp only
    rw [hrem]
  · rw [if_neg (by simp [hex]), htry]
    dsimp only
    rw [hrem]
  · rw [if_neg (by simp [hex]), htry]

theorem c9_remove_directory_fallback_witness :
    removeDirRec witAdapter 1 () "dir" = some (Except.error "listfail", ()) := by
  have htry : tryPart witAdapter 0 () "dir" = some (Except.error "listfail", ()) := by
    unfold tryPart witAdapter
    rfl
  exact (((c9_remove_directory_fallback witAdapter 0 () "dir").2.1 "listfail" ()
    rfl htry).2 "removefail" () rfl)

/-! ### Sitemap serialization (C8) -/

theorem strEqOfData {a b : String} (h : a.data = b.data) : a = b := by
  cases a
  cases b
  exact congrArg String.mk h

theorem data_ne_nil {t : String} (h : t ≠ "") : t.data ≠ [] := fun hd =>
  h (strEqOfData (hd.trans rfl))

set_option maxRecDepth 100000 in
/-- Counterexample to C8 as stated: a lastmod value containing `<` is
emitted verbatim, not XML-escaped — `toXml` differs from the
all-values-escaped serialization, and its output contains the raw
unescaped segment. -/
theorem c8_counterexample :
    sitemapToXml "https://e.x" [{ loc := "a", lastmod := some "b<c" }]
      ≠ toXmlAllEscapedSpec "https://e.x" [{ loc := "a", lastmod := some "b<c" }]
    ∧ containsSeg "<lastmod>b<c</lastmod>".data
        (sitemapToXml "https://e.x" [{ loc := "a", lastmod := some "b<c" }]).data
      = true := by
  decide

/-- Claim C8, amended: `toXml` serializes the accumulated entries in
accumulation order; each `<loc>` is fully qualified by prefixing the
configured site base URL and is XML-escaped; each present priority is
formatted to exactly one decimal place; lastmod and changefreq are
emitted verbatim (not escaped). -/
theorem c8_sitemap_serialization (rawHostname : String) (urls : List SitemapUrl) :
    sitemapToXml rawHostname urls = toXmlSpec rawHostname urls := by
  unfold sitemapToXml toXmlSpec
  dsimp only
  have h : ∀ u, generateUrlEntry (sitemapHostname rawHostname) u
      = urlEntrySpec (sitemapHostname rawHostname) u := by
    intro u
    rcases u with ⟨loc, lm, cf, pr⟩
    rcases lm with _ | lm <;> rcases cf with _ | cf <;> rcases pr with _ | pr <;>
      · apply strEqOfData
        simp [generateUrlEntry, urlEntrySpec, strIntercalate, String.data_append,
          List.append_assoc]
  rw [List.map_congr_left fun u _ => h u]

/-! ### Broken-reference containment (C1): scanner lemmas -/

theorem splitCh_no_sep {sep : Char} :
    ∀ {l : List Char}, (∀ c ∈ l, c ≠ sep) → splitCh sep l = [l] := by
  intro l
  induction l with
  | nil => intro _; rfl
  | cons c rest ih =>
    intro h
    unfold splitCh
    rw [if_neg (h c (List.mem_cons_self _ _)), ih (fun c hc => h c (List.mem_cons_of_mem _ hc))]

theorem splitCh_append {sep : Char} :
    ∀ {x : List Char} (y : List Char), (∀ c ∈ x, c ≠ sep) →
      splitCh sep (x ++ sep :: y) = x :: splitCh sep y := by
  intro x
  induction x with
  | nil => intro y _; simp [splitCh]
  | cons c rest ih =>
    intro y h
    have hstep := ih y (fun c hc => h c (List.mem_cons_of_mem _ hc))
    simp only [List.cons_append]
    conv_lhs => unfold splitCh
    rw [if_neg (h c (List.mem_cons_self _ _)), hstep]

theorem splitAtRB_exact :
    ∀ {t : List Char} (r : List Char), (∀ c ∈ t, c ≠ ']') →
      splitAtRB (t ++ ']' :: r) = (t, ']' :: r) := by
  intro t
  induction t with
  | nil => intro r _; simp [splitAtRB]
  | cons c rest ih =>
    intro r h
    simp only [List.cons_append]
    unfold splitAtRB
    rw [if_neg (h c (List.mem_cons_self _ _)), ih r (fun c hc => h c (List.mem_cons_of_mem _ hc))]

theorem findWikiMatch_exact {t : List Char} (b : List Char) (ht0 : t ≠ [])
    (ht1 : ∀ c ∈ t, c ≠ ']') :
    findWikiMatch (t ++ ']' :: ']' :: b) = some (t, b) := by
  unfold findWikiMatch
  rw [splitAtRB_exact (']' :: b) ht1]
  rw [if_neg (by simpa using ht0), if_pos (by simp)]
  simp

theorem wikiScan_nil (repl : String → String) (prev : Option Char) :
    wikiScan repl prev [] = [] := by
  unfold wikiScan
  rfl

theorem wikiScan_pass (repl : String → String) (prev : Option Char) {c : Char}
    (rest : List Char) (h : ¬(c = '[' ∧ rest.head? = some '[' ∧ prev ≠ some '!')) :
    wikiScan repl prev (c :: rest) = c :: wikiScan repl (some c) rest := by
  conv_lhs => unfold wikiScan
  rw [if_neg h]

theorem wikiScan_match (repl : String → String) {prev : Option Char}
    (hprev : prev ≠ some '!') {t : List Char} (b : List Char) (ht0 : t ≠ [])
    (ht1 : ∀ c ∈ t, c ≠ ']') :
    wikiScan repl prev ('[' :: '[' :: (t ++ ']' :: ']' :: b))
      = (repl (String.mk t)).data ++ wikiScan repl (some ']') b := by
  conv_lhs => unfold wikiScan
  rw [if_pos ⟨rfl, rfl, hprev⟩]
  simp only [List.tail_cons]
  rw [findWikiMatch_exact b ht0 ht1]

theorem wikiScan_append (repl : String → String) :
    ∀ {a : List Char}, '[' ∉ a → ∀ (prev : Option Char) (l : List Char),
      wikiScan repl prev (a ++ l) = a ++ wikiScan repl (lastOr prev a) l := by
  intro a
  induction a with
  | nil => intro _ prev l; rfl
  | cons c rest ih =>
    intro ha prev l
    have hc : c ≠ '[' := fun h => ha (h ▸ List.mem_cons_self _ _)
    have hrest : '[' ∉ rest := fun h => ha (List.mem_cons_of_mem _ h)
    simp only [List.cons_append]
    rw [wikiScan_pass repl prev _ (by rintro ⟨h1, -, -⟩; exact hc h1)]
    rw [ih hrest (some c) l]
    rfl

theorem lastOr_ne {ch : Char} :
    ∀ {a : List Char}, ch ∉ a → ∀ {prev : Option Char}, prev ≠ some ch →
      lastOr prev a ≠ some ch := by
  intro a
  induction a with
  | nil => intro _ prev hp; exact hp
  | cons c rest ih =>
    intro ha prev _
    have hc : c ≠ ch := fun h => ha (h ▸ List.mem_cons_self _ _)
    exact ih (fun h => ha (List.mem_cons_of_mem _ h)) (by simpa using hc)

theorem imgScan_nil (repl : String → String) : imgScan repl [] = [] := by
  unfold imgScan
  rfl

theorem imgScan_pass (repl : String → String) {c : Char} (rest : List Char)
    (h : ¬(c = '!' ∧ rest.head? = some '[' ∧ rest.tail.head? = some '[')) :
    imgScan repl (c :: rest) = c :: imgScan repl rest := by
  conv_lhs => unfold imgScan
  rw [if_neg h]

theorem imgScan_match (repl : String → String) {t : List Char} (b : List Char)
    (ht0 : t ≠ []) (ht1 : ∀ c ∈ t, c ≠ ']') :
    imgScan repl ('!' :: '[' :: '[' :: (t ++ ']' :: ']' :: b))
      = (repl (String.mk t)).data ++ imgScan repl b := by
  conv_lhs => unfold imgScan
  rw [if_pos ⟨rfl, rfl, rfl⟩]
  simp only [List.tail_cons]
  rw [findWikiMatch_exact b ht0 ht1]

theorem imgScan_append (repl : String → String) :
    ∀ {a : List Char}, '[' ∉ a → ∀ {l : List Char}, l.head? ≠ some '[' →
      imgScan repl (a ++ l) = a ++ imgScan repl l := by
  intro a
  induction a with
  | nil => intro _ l _; rfl
  | cons c rest ih =>
    intro ha l hl
    have hrest : '[' ∉ rest := fun h => ha (List.mem_cons_of_mem _ h)
    simp only [List.cons_append]
    rw [imgScan_pass repl _ ?_]
    · rw [ih hrest hl]
    · rintro ⟨-, h2, -⟩
      rcases rest with _ | ⟨r0, rest0⟩
      · rw [List.nil_append] at h2
        exact hl h2
      · rw [List.cons_append, List.head?_cons, Option.some.injEq] at h2
        apply hrest
        rw [h2]
        exact List.mem_cons_self _ _

/-- `wikiRepl` on an unresolvable single-part reference. -/
theorem wikiRepl_broken (files : List TFile) (cur : TFile) {t : String}
    (ht : '|' ∉ t.data) (hfind : findTargetFile files (jsTrim t) = none) :
    wikiRepl files cur t = "[" ++ jsTrim t ++ "](#broken-link)" := by
  have hch : ∀ c ∈ t.data, c ≠ '|' := fun c hc h => ht (h ▸ hc)
  have hsp : splitPipe t = [t] := by
    unfold splitPipe
    rw [splitCh_no_sep hch]
    rfl
  simp only [wikiRepl, hsp, List.headD_cons, List.drop_succ_cons, List.drop_nil, hfind]

/-- `wikiRepl` on an unresolvable labelled reference keeps the label. -/
theorem wikiRepl_broken_label (files : List TFile) (cur : TFile)
    {target label : String} (ht : '|' ∉ target.data) (hl : '|' ∉ label.data)
    (hl0 : label ≠ "")
    (hfind : findTargetFile files (jsTrim target) = none) :
    wikiRepl files cur (target ++ "|" ++ label)
      = "[" ++ jsTrim label ++ "](#broken-link)" := by
  have hcht : ∀ c ∈ target.data, c ≠ '|' := fun c hc h => ht (h ▸ hc)
  have hchl : ∀ c ∈ label.data, c ≠ '|' := fun c hc h => hl (h ▸ hc)
  have hsp : splitPipe (target ++ "|" ++ label) = [target, label] := by
    unfold splitPipe
    have hd : (target ++ "|" ++ label).data = target.data ++ '|' :: label.data := by
      simp [String.data_append]
    rw [hd, splitCh_append label.data hcht, splitCh_no_sep hchl]
    rfl
  simp only [wikiRepl, hsp, List.headD_cons, List.drop_succ_cons, List.drop_zero,
    List.drop_nil, if_neg hl0, hfind]

/-- `imgRepl` on an unresolvable image embed. -/
theorem imgRepl_broken (images : List TFile) (cur : TFile) {p : String}
    (himg : findImageFile images p = none) :
    imgRepl images cur p = "![" ++ p ++ "](#broken-image)" := by
  unfold imgRepl
  rw [himg]

/-- Claim C1: an unresolvable wiki reference (plain or labelled, not
preceded by `!`) never fails the run and is replaced by a link whose
destination is the literal fragment `#broken-link`, keeping the label
as link text; an unresolvable image embed is replaced by image markup
with the path as literal alt text and destination `#broken-image`.
The prefix before the marker may be any text without brackets and not
ending in `!`; the suffix is arbitrary and keeps being rewritten. -/
theorem c1_broken_reference_containment
    (files images : List TFile) (cur : TFile) (a t lbl b ai p bi : String)
    (ha1 : '[' ∉ a.data) (ha2 : '!' ∉ a.data)
    (ht0 : t ≠ "") (ht1 : ']' ∉ t.data) (ht2 : '|' ∉ t.data)
    (hlb0 : lbl ≠ "") (hlb1 : ']' ∉ lbl.data) (hlb2 : '|' ∉ lbl.data)
    (hfind : findTargetFile files (jsTrim t) = none)
    (hai : '[' ∉ ai.data) (hp0 : p ≠ "") (hp1 : ']' ∉ p.data)
    (himg : findImageFile images p = none) :
    convertWikiLinks files cur (a ++ "[[" ++ t ++ "]]" ++ b)
      = a ++ "[" ++ jsTrim t ++ "](#broken-link)"
        ++ String.mk (wikiScan (wikiRepl files cur) (some ']') b.data)
    ∧ convertWikiLinks files cur (a ++ "[[" ++ t ++ "|" ++ lbl ++ "]]" ++ b)
      = a ++ "[" ++ jsTrim lbl ++ "](#broken-link)"
        ++ String.mk (wikiScan (wikiRepl files cur) (some ']') b.data)
    ∧ convertImageEmbeds images cur (ai ++ "![[" ++ p ++ "]]" ++ bi)
      = ai ++ "![" ++ p ++ "](#broken-image)"
        ++ String.mk (imgScan (imgRepl images cur) bi.data) := by
  refine ⟨?_, ?_, ?_⟩
  · apply strEqOfData
    unfold convertWikiLinks
    have hd : (a ++ "[[" ++ t ++ "]]" ++ b).data
        = a.data ++ ('[' :: '[' :: (t.data ++ ']' :: ']' :: b.data)) := by
      simp [String.data_append]
    rw [hd, wikiScan_append _ ha1,
      wikiScan_match _ (lastOr_ne ha2 (by simp)) _ (data_ne_nil ht0)
        (fun c hc h => ht1 (h ▸ hc)),
      wikiRepl_broken files cur ht2 hfind]
    simp [String.data_append]
  · apply strEqOfData
    unfold convertWikiLinks
    have hd : (a ++ "[[" ++ t ++ "|" ++ lbl ++ "]]" ++ b).data
        = a.data ++ ('[' :: '[' :: ((t.data ++ '|' :: lbl.data) ++ ']' :: ']' :: b.data)) := by
      simp [String.data_append]
    have hmk : String.mk (t.data ++ '|' :: lbl.data) = t ++ "|" ++ lbl := by
      apply strEqOfData
      simp [String.data_append]
    rw [hd, wikiScan_append _ ha1,
      wikiScan_match _ (lastOr_ne ha2 (by simp)) _ (by simp)
        (by
          intro c hc h
          rcases List.mem_append.mp hc with h' | h'
          · exact ht1 (h ▸ h')
          · rcases List.mem_cons.mp h' with h'' | h''
            · rw [h''] at h
              cases h
            · exact hlb1 (h ▸ h'')),
      hmk, wikiRepl_broken_label files cur ht2 hlb2 hlb0 hfind]
    simp [String.data_append]
  · apply strEqOfData
    unfold convertImageEmbeds
    have hd : (ai ++ "![[" ++ p ++ "]]" ++ bi).data
        = ai.data ++ ('!' :: '[' :: '[' :: (p.data ++ ']' :: ']' :: bi.data)) := by
      simp [String.data_append]
    rw [hd, imgScan_append _ hai (by simp),
      imgScan_match _ _ (data_ne_nil hp0) (fun c hc h => hp1 (h ▸ hc)),
      imgRepl_broken images cur himg]
    simp [String.data_append]

theorem c1_broken_reference_containment_witness :
    convertWikiLinks [] ⟨"blog/a.md"⟩ "see [[ghost]] end"
      = "see [ghost](#broken-link)"
        ++ String.mk (wikiScan (wikiRepl [] ⟨"blog/a.md"⟩) (some ']') " end".data)
    ∧ convertWikiLinks [] ⟨"blog/a.md"⟩ "see [[ghost|Label]] end"
      = "see [Label](#broken-link)"
        ++ String.mk (wikiScan (wikiRepl [] ⟨"blog/a.md"⟩) (some ']') " end".data)
    ∧ convertImageEmbeds [] ⟨"blog/a.md"⟩ "pic ![[missing.png]] end"
      = "pic ![missing.png](#broken-image)"
        ++ String.mk (imgScan (imgRepl [] ⟨"blog/a.md"⟩) " end".data) := by
  have h := c1_broken_reference_containment [] [] ⟨"blog/a.md"⟩
    "see " "ghost" "Label" " end" "pic " "missing.png" " end"
    (by decide) (by decide) (by decide) (by decide) (by decide)
    (by decide) (by decide) (by decide) rfl
    (by decide) (by decide) (by decide) rfl
  exact h

/-! ### Path algebra: split/join inverses and normalization (C2, C4, C10) -/

theorem splitCh_ne_nil {sep : Char} : ∀ (l : List Char), splitCh sep l ≠ [] := by
  intro l
  induction l with
  | nil => simp [splitCh]
  | cons c rest ih =>
    unfold splitCh
    split
    · simp
    · rcases h : splitCh sep rest with _ | ⟨g, gs⟩ <;> simp [h]

theorem splitSlash_ne_nil (s : String) : splitSlash s ≠ [] := by
  unfold splitSlash
  intro h
  exact splitCh_ne_nil s.data (List.map_eq_nil.mp h)

theorem mem_splitCh_no_sep {sep : Char} :
    ∀ {l : List Char} {g : List Char}, g ∈ splitCh sep l → sep ∉ g := by
  intro l
  induction l with
  | nil =>
    intro g hg
    simp [splitCh] at hg
    simp [hg]
  | cons c rest ih =>
    intro g hg
    unfold splitCh at hg
    by_cases hc : c = sep
    · rw [if_pos hc] at hg
      rcases List.mem_cons.mp hg with h | h
      · simp [h]
      · exact ih h
    · rw [if_neg hc] at hg
      rcases hsp : splitCh sep rest with _ | ⟨g0, gs⟩
      · exact absurd hsp (splitCh_ne_nil rest)
      · rw [hsp] at hg
        have hg0 : g0 ∈ splitCh sep rest := by
          rw [hsp]
          exact List.mem_cons_self _ _
        rcases List.mem_cons.mp hg with h | h
        · subst h
          intro hmem
          rcases List.mem_cons.mp hmem with h | h
          · exact hc h.symm
          · exact ih hg0 h
        · refine ih ?_
          rw [hsp]
          exact List.mem_cons_of_mem g0 h

/-- Each segment produced by `splitSlash` is slash-free. -/
theorem mem_splitSlash_no_slash {s : String} {g : String} (hg : g ∈ splitSlash s) :
    '/' ∉ g.data := by
  unfold splitSlash at hg
  rcases List.mem_map.mp hg with ⟨l, hl, rfl⟩
  exact mem_splitCh_no_sep hl

theorem splitCh_joinCh {sep : Char} :
    ∀ {gs : List (List Char)}, gs ≠ [] → (∀ g ∈ gs, sep ∉ g) →
      splitCh sep (joinCh sep gs) = gs := by
  intro gs
  induction gs with
  | nil => intro h _; exact absurd rfl h
  | cons g rest ih =>
    intro _ hfree
    rcases rest with _ | ⟨g2, gs2⟩
    · show splitCh sep g = [g]
      exact @splitCh_no_sep sep g fun c hc h =>
        hfree g (List.mem_cons_self _ _) (h ▸ hc)
    · show splitCh sep (g ++ sep :: joinCh sep (g2 :: gs2)) = g :: g2 :: gs2
      rw [@splitCh_append sep g _
          (fun c hc h => hfree g (List.mem_cons_self _ _) (h ▸ hc)),
        ih (by simp) (fun g' hg' => hfree g' (List.mem_cons_of_mem _ hg'))]

theorem splitSlash_joinSegs {L : List String} (h0 : L ≠ [])
    (hfree : ∀ s ∈ L, '/' ∉ s.data) : splitSlash (joinSegs L) = L := by
  unfold splitSlash joinSegs
  rw [show (String.mk (joinCh '/' (L.map String.data))).data
      = joinCh '/' (L.map String.data) from rfl]
  rw [splitCh_joinCh (by simpa using h0)
    (by
      intro g hg
      rcases List.mem_map.mp hg with ⟨s, hs, rfl⟩
      exact hfree s hs)]
  rw [List.map_map]
  have : (String.mk ∘ String.data) = id := by
    funext s
    cases s
    rfl
  rw [this, List.map_id]

theorem normSegs_append (l₁ : List String) :
    ∀ (stack : List String) (l₂ : List String),
      normSegs stack (l₁ ++ l₂) = normSegs ((normSegs stack l₁).reverse) l₂ := by
  induction l₁ with
  | nil => intro stack l₂; simp [normSegs]
  | cons s rest ih =>
    intro stack l₂
    by_cases h1 : s = ""
    · simp only [List.cons_append, normSegs, if_pos h1]
      exact ih stack l₂
    · by_cases h2 : s = "."
      · simp only [List.cons_append, normSegs, if_neg h1, if_pos h2]
        exact ih stack l₂
      · by_cases h3 : s = ".."
        · simp only [List.cons_append, normSegs, if_neg h1, if_neg h2, if_pos h3]
          rcases stack with _ | ⟨top, stk⟩
          · exact ih [".."] l₂
          · dsimp only
            by_cases h4 : top = ".."
            · rw [if_pos h4, if_pos h4]
              exact ih _ l₂
            · rw [if_neg h4, if_neg h4]
              exact ih stk l₂
        · simp only [List.cons_append, normSegs, if_neg h1, if_neg h2, if_neg h3]
          exact ih (s :: stack) l₂

theorem normSegs_no_dotdot :
    ∀ {l : List String}, (∀ s ∈ l, s ≠ "..") → ∀ (stack : List String),
      normSegs stack l
        = stack.reverse ++ l.filter (fun s => !(s = "") && !(s = ".")) := by
  intro l
  induction l with
  | nil => intro _ stack; simp [normSegs]
  | cons s rest ih =>
    intro h stack
    have hdd : s ≠ ".." := h s (List.mem_cons_self _ _)
    have hrest : ∀ s ∈ rest, s ≠ ".." := fun s hs => h s (List.mem_cons_of_mem _ hs)
    by_cases h1 : s = ""
    · simp only [normSegs, if_pos h1, List.filter_cons]
      rw [ih hrest stack]
      simp [h1]
    · by_cases h2 : s = "."
      · simp only [normSegs, if_neg h1, if_pos h2, List.filter_cons]
        rw [ih hrest stack]
        simp [h1, h2]
      · simp only [normSegs, if_neg h1, if_neg h2, if_neg hdd, List.filter_cons]
        rw [ih hrest (s :: stack)]
        simp [h1, h2]

/-- On a list of well-behaved segments, normalization is the
identity. -/
theorem normSegs_all_good {l : List String} (h : ∀ s ∈ l, goodSeg s = true) :
    normSegs [] l = l := by
  have hdd : ∀ s ∈ l, s ≠ ".." := by
    intro s hs heq
    have := h s hs
    rw [heq] at this
    simp [goodSeg] at this
  rw [normSegs_no_dotdot hdd []]
  simp only [List.reverse_nil, List.nil_append]
  rw [List.filter_eq_self]
  intro s hs
  have hg := h s hs
  unfold goodSeg at hg
  simp only [Bool.and_eq_true, Bool.not_eq_true', decide_eq_false_iff_not] at hg
  simp [hg.1.1.1.1, hg.1.1.1.2]

theorem normSegs_pop :
    ∀ {g : List String}, (∀ s ∈ g, s ≠ "..") →
      ∀ (stack rest : List String),
        normSegs (g ++ stack) (List.replicate g.length ".." ++ rest)
          = normSegs stack rest := by
  intro g
  induction g with
  | nil => intro _ stack rest; simp
  | cons s g' ih =>
    intro h stack rest
    have hs : s ≠ ".." := h s (List.mem_cons_self _ _)
    simp only [List.length_cons, List.replicate_succ, List.cons_append]
    show normSegs (s :: (g' ++ stack)) (".." :: (List.replicate g'.length ".." ++ rest))
      = normSegs stack rest
    simp only [normSegs, if_neg (by decide : ¬(".." : String) = ""),
      if_neg (by decide : ¬(".." : String) = "."), if_pos rfl, if_neg hs]
    exact ih (fun s hs => h s (List.mem_cons_of_mem _ hs)) stack rest

/-! ### The output path's segments are well behaved -/

theorem sanitizeFilename_no_slash (s : String) : '/' ∉ (sanitizeFilename s).data :=
  fun h => absurd (mem_sanitizeFilename h) (by decide)

theorem sanitizeFilename_no_backslash (s : String) :
    '\\' ∉ (sanitizeFilename s).data :=
  fun h => absurd (mem_sanitizeFilename h) (by decide)

theorem sanitizeFilename_ne_dot (s : String) : sanitizeFilename s ≠ "." := by
  intro h
  have hm : '.' ∈ (sanitizeFilename s).data := by
    rw [h]
    decide
  exact absurd (mem_sanitizeFilename hm) (by decide)

theorem sanitizeFilename_ne_dotdot (s : String) : sanitizeFilename s ≠ ".." := by
  intro h
  have hm : '.' ∈ (sanitizeFilename s).data := by
    rw [h]
    decide
  exact absurd (mem_sanitizeFilename hm) (by decide)

theorem outputNameOf_no_slash (p : String) : '/' ∉ (outputNameOf p).data := by
  unfold outputNameOf
  split
  · decide
  · exact sanitizeFilename_no_slash _

theorem outputNameOf_no_backslash (p : String) : '\\' ∉ (outputNameOf p).data := by
  unfold outputNameOf
  split
  · decide
  · exact sanitizeFilename_no_backslash _

/-- The output file-name segment (`outputName ++ ".html"`) is a good
segment. -/
theorem outName_goodSeg (p : String) :
    goodSeg (outputNameOf p ++ ".html") = true := by
  have hdata : (outputNameOf p ++ ".html").data
      = (outputNameOf p).data ++ ".html".data := String.data_append ..
  have hlen : 5 ≤ (outputNameOf p ++ ".html").data.length := by
    rw [hdata, List.length_append]
    have : ".html".data.length = 5 := by decide
    omega
  have hne : ∀ (z : String), z.data.length ≤ 2 → (outputNameOf p ++ ".html") ≠ z := by
    intro z hz h
    rw [h] at hlen
    omega
  have hsl : '/' ∉ (outputNameOf p ++ ".html").data := by
    rw [hdata]
    intro h
    rcases List.mem_append.mp h with h | h
    · exact outputNameOf_no_slash p h
    · revert h
      decide
  have hbs : '\\' ∉ (outputNameOf p ++ ".html").data := by
    rw [hdata]
    intro h
    rcases List.mem_append.mp h with h | h
    · exact outputNameOf_no_backslash p h
    · revert h
      decide
  unfold goodSeg
  rw [decide_eq_false hsl, decide_eq_false hbs]
  simp [hne "" (by decide), hne "." (by decide), hne ".." (by decide)]

/-- A sanitized segment is either empty or good. -/
theorem sanitizeFilename_goodSeg (s : String) (h : sanitizeFilename s ≠ "") :
    goodSeg (sanitizeFilename s) = true := by
  unfold goodSeg
  rw [decide_eq_false (sanitizeFilename_no_slash s),
    decide_eq_false (sanitizeFilename_no_backslash s)]
  simp [h, sanitizeFilename_ne_dot s, sanitizeFilename_ne_dotdot s]

theorem splitSlash_singleton {s : String} (h : '/' ∉ s.data) :
    splitSlash s = [s] := by
  unfold splitSlash
  rw [@splitCh_no_sep '/' s.data (fun c hc hcs => h (hcs ▸ hc))]
  simp

theorem splitSlash_sanitizeDir (d : String) :
    splitSlash (sanitizeDirectoryPath d) = (splitSlash d).map sanitizeFilename := by
  unfold sanitizeDirectoryPath
  refine splitSlash_joinSegs ?_ ?_
  · intro h
    exact splitSlash_ne_nil d (List.map_eq_nil.mp h)
  · intro s hs
    rcases List.mem_map.mp hs with ⟨x, -, rfl⟩
    exact sanitizeFilename_no_slash x

/-- The raw (pre-normalization) segment list of an output path. -/
theorem outSegs_raw (p : String) :
    outSegs p
      = ("obsidian-foursg" :: "site" ::
          ((splitSlash (dirname p)).map sanitizeFilename).filter
            (fun s => !(s = "") && !(s = ".")))
        ++ [outputNameOf p ++ ".html"] := by
  unfold outSegs
  rw [normSegs_no_dotdot ?_ []]
  · rw [List.filter_append, List.filter_append]
    have h1 : List.filter (fun s => !(s = "") && !(s = "."))
        ["obsidian-foursg", "site"] = ["obsidian-foursg", "site"] := by decide
    have hname := outName_goodSeg p
    unfold goodSeg at hname
    simp only [Bool.and_eq_true, Bool.not_eq_true', decide_eq_false_iff_not] at hname
    have h2 : List.filter (fun s => !(s = "") && !(s = "."))
        [outputNameOf p ++ ".html"] = [outputNameOf p ++ ".html"] := by
      simp [hname.1.1.1.1, hname.1.1.1.2]
    rw [h1, h2]
    simp
  · intro s hs
    rcases List.mem_append.mp hs with hs | hs
    · rcases List.mem_append.mp hs with hs | hs
      · have h2 : s = "obsidian-foursg" ∨ s = "site" := by simpa using hs
        rcases h2 with rfl | rfl <;> decide
      · rcases List.mem_map.mp hs with ⟨x, -, rfl⟩
        exact sanitizeFilename_ne_dotdot x
    · have h2 : s = outputNameOf p ++ ".html" := by simpa using hs
      subst h2
      have hname := outName_goodSeg p
      unfold goodSeg at hname
      simp only [Bool.and_eq_true, Bool.not_eq_true', decide_eq_false_iff_not] at hname
      exact hname.1.1.2

theorem outSegs_good (p : String) : ∀ s ∈ outSegs p, goodSeg s = true := by
  intro s hs
  rw [outSegs_raw] at hs
  rcases List.mem_append.mp hs with hs | hs
  · rcases List.mem_cons.mp hs with rfl | hs
    · decide
    · rcases List.mem_cons.mp hs with rfl | hs
      · decide
      · have hmem := List.mem_of_mem_filter hs
        have hkeep := List.of_mem_filter hs
        rcases List.mem_map.mp hmem with ⟨x, -, rfl⟩
        refine sanitizeFilename_goodSeg x ?_
        simp only [Bool.and_eq_true, Bool.not_eq_true', decide_eq_false_iff_not] at hkeep
        exact hkeep.1
  · have h2 : s = outputNameOf p ++ ".html" := by simpa using hs
    exact h2 ▸ outName_goodSeg p

theorem outSegs_ne_nil (p : String) : outSegs p ≠ [] := by
  rw [outSegs_raw]
  simp

theorem outSegs_no_slash (p : String) : ∀ s ∈ outSegs p, '/' ∉ s.data := by
  intro s hs
  have hg := outSegs_good p s hs
  unfold goodSeg at hg
  simp only [Bool.and_eq_true, Bool.not_eq_true', decide_eq_false_iff_not] at hg
  exact hg.1.2

theorem normSegs_cons_empty (stack l : List String) :
    normSegs stack ("" :: l) = normSegs stack l := by
  simp [normSegs]

/-- `getOutputPath` renders exactly the normalized output segments. -/
theorem getOutputPath_eq (p : String) : getOutputPath p = joinSegs (outSegs p) := by
  have hname : splitSlash (outputNameOf p ++ ".html") = [outputNameOf p ++ ".html"] := by
    refine splitSlash_singleton ?_
    have hname := outName_goodSeg p
    unfold goodSeg at hname
    simp only [Bool.and_eq_true, Bool.not_eq_true', decide_eq_false_iff_not] at hname
    exact hname.1.2
  have hsite : splitSlash sitePath = ["obsidian-foursg", "site"] := by decide
  have hnonempty : ¬(outSegs p).isEmpty = true := by
    rw [List.isEmpty_iff]
    exact outSegs_ne_nil p
  unfold getOutputPath
  show (if dirname p = "." then joinPath [sitePath, outputNameOf p ++ ".html"]
    else joinPath [sitePath, sanitizeDirectoryPath (dirname p),
      outputNameOf p ++ ".html"]) = joinSegs (outSegs p)
  by_cases hdir : dirname p = "."
  · rw [if_pos hdir]
    unfold joinPath
    have hraw : concatMap splitSlash [sitePath, outputNameOf p ++ ".html"]
        = ["obsidian-foursg", "site"] ++ [outputNameOf p ++ ".html"] := by
      unfold concatMap concatMap concatMap
      rw [hsite, hname]
      simp
    rw [hraw]
    have hmid : (splitSlash (dirname p)).map sanitizeFilename = [""] := by
      rw [hdir]
      decide
    have houtsegs : outSegs p
        = normSegs [] (["obsidian-foursg", "site"] ++ "" ::
            [outputNameOf p ++ ".html"]) := by
      unfold outSegs
      rw [hmid]
      rfl
    have hskip : normSegs [] (["obsidian-foursg", "site"]
          ++ "" :: [outputNameOf p ++ ".html"])
        = normSegs [] (["obsidian-foursg", "site"] ++ [outputNameOf p ++ ".html"]) := by
      rw [normSegs_append, normSegs_append, normSegs_cons_empty]
    rw [show normSegs [] (["obsidian-foursg", "site"] ++ [outputNameOf p ++ ".html"])
        = outSegs p from by rw [houtsegs, hskip]]
    rw [if_neg hnonempty]
  · rw [if_neg hdir]
    unfold joinPath
    have hraw : concatMap splitSlash
        [sitePath, sanitizeDirectoryPath (dirname p), outputNameOf p ++ ".html"]
        = ["obsidian-foursg", "site"]
          ++ (splitSlash (dirname p)).map sanitizeFilename
          ++ [outputNameOf p ++ ".html"] := by
      unfold concatMap concatMap concatMap concatMap
      rw [hsite, hname, splitSlash_sanitizeDir]
      simp
    rw [hraw]
    rw [show normSegs [] (["obsidian-foursg", "site"]
          ++ (splitSlash (dirname p)).map sanitizeFilename
          ++ [outputNameOf p ++ ".html"]) = outSegs p from rfl]
    rw [if_neg hnonempty]

/-- The claim-side composition renders the same segments. -/
theorem outputPathSpec_eq (p : String) : outputPathSpec p = joinSegs (outSegs p) := by
  have hname : splitSlash (outputNameOf p ++ ".html") = [outputNameOf p ++ ".html"] := by
    refine splitSlash_singleton ?_
    have hname := outName_goodSeg p
    unfold goodSeg at hname
    simp only [Bool.and_eq_true, Bool.not_eq_true', decide_eq_false_iff_not] at hname
    exact hname.1.2
  have hsite : splitSlash sitePath = ["obsidian-foursg", "site"] := by decide
  have hnonempty : ¬(outSegs p).isEmpty = true := by
    rw [List.isEmpty_iff]
    exact outSegs_ne_nil p
  unfold outputPathSpec joinPath
  have hraw : concatMap splitSlash
      [sitePath, sanitizeDirectoryPath (dirname p), outputNameOf p ++ ".html"]
      = ["obsidian-foursg", "site"]
        ++ (splitSlash (dirname p)).map sanitizeFilename
        ++ [outputNameOf p ++ ".html"] := by
    unfold concatMap concatMap concatMap concatMap
    rw [hsite, hname, splitSlash_sanitizeDir]
    simp
  rw [hraw]
  rw [show normSegs [] (["obsidian-foursg", "site"]
        ++ (splitSlash (dirname p)).map sanitizeFilename
        ++ [outputNameOf p ++ ".html"]) = outSegs p from rfl]
  rw [if_neg hnonempty]

/-! ### Output-path shape (C4) and empty-stem collisions (C10) -/

theorem startsWithCh_refl : ∀ (l : List Char), startsWithCh l l = true := by
  intro l
  induction l with
  | nil => rfl
  | cons c rest ih => simp [startsWithCh, ih]

theorem startsWithCh_extend {pat : List Char} :
    ∀ {l : List Char}, startsWithCh pat l = true → ∀ (z : List Char),
      startsWithCh pat (l ++ z) = true := by
  induction pat with
  | nil => intro l _ z; rfl
  | cons c rest ih =>
    intro l h z
    rcases l with _ | ⟨x, xs⟩
    · cases h
    · simp only [startsWithCh, Bool.and_eq_true] at h
      simp only [List.cons_append, startsWithCh, Bool.and_eq_true]
      exact ⟨h.1, ih h.2 z⟩

theorem endsWithCh_append_left {y pat : List Char} (h : endsWithCh y pat = true)
    (x : List Char) : endsWithCh (x ++ y) pat = true := by
  unfold endsWithCh at *
  rw [List.reverse_append]
  exact startsWithCh_extend h x.reverse

theorem endsWithCh_self_append (pat x : List Char) :
    endsWithCh (x ++ pat) pat = true := by
  unfold endsWithCh
  rw [List.reverse_append]
  exact startsWithCh_extend (startsWithCh_refl pat.reverse) x.reverse

theorem joinCh_snoc {sep : Char} :
    ∀ {gs : List (List Char)}, gs ≠ [] → ∀ (g : List Char),
      joinCh sep (gs ++ [g]) = joinCh sep gs ++ sep :: g := by
  intro gs
  induction gs with
  | nil => intro h; exact absurd rfl h
  | cons g0 rest ih =>
    intro _ g
    rcases rest with _ | ⟨g1, gs1⟩
    · rfl
    · show joinCh sep (g0 :: ((g1 :: gs1) ++ [g]))
        = (g0 ++ sep :: joinCh sep (g1 :: gs1)) ++ sep :: g
      rw [show joinCh sep (g0 :: ((g1 :: gs1) ++ [g]))
          = g0 ++ sep :: joinCh sep ((g1 :: gs1) ++ [g]) from rfl]
      rw [ih (by simp) g]
      simp

/-- Claim C4: the computed output path is exactly the site output root,
then the sanitized source directory, then the stem — literally `index`
for case-insensitive index files, the sanitized base name otherwise —
with extension `.html`; in particular every output path ends in
`.html`. -/
theorem c4_output_path_shape (p : String) :
    getOutputPath p = outputPathSpec p
    ∧ endsWithCh (getOutputPath p).data ".html".data = true := by
  constructor
  · rw [getOutputPath_eq, outputPathSpec_eq]
  · rw [getOutputPath_eq]
    rw [outSegs_raw]
    unfold joinSegs
    rw [show (String.mk (joinCh '/' ((("obsidian-foursg" :: "site" ::
        ((splitSlash (dirname p)).map sanitizeFilename).filter
          (fun s => !(s = "") && !(s = "."))) ++ [outputNameOf p ++ ".html"]).map
        String.data))).data
      = joinCh '/' ((("obsidian-foursg" :: "site" ::
        ((splitSlash (dirname p)).map sanitizeFilename).filter
          (fun s => !(s = "") && !(s = "."))) ++ [outputNameOf p ++ ".html"]).map
        String.data) from rfl]
    rw [List.map_append]
    simp only [List.map_cons, List.map_nil]
    rw [joinCh_snoc (by simp) _]
    have hname : (outputNameOf p ++ ".html").data
        = (outputNameOf p).data ++ ".html".data := String.data_append ..
    rw [hname]
    refine endsWithCh_append_left ?_ _
    rw [show ('/' :: ((outputNameOf p).data ++ ".html".data))
        = ('/' :: (outputNameOf p).data) ++ ".html".data from by simp]
    exact endsWithCh_self_append _ _

/-- Claim C10: a non-index document whose base name sanitizes to the
empty string gets the file name `.html` with no stem, and two such
documents in the same source directory collide on the same output
path. -/
theorem c10_empty_stem_collision (p q : String)
    (hbp : jsToLower (basenameExt p ".md") ≠ "index")
    (hsp : sanitizeFilename (basenameExt p ".md") = "")
    (hbq : jsToLower (basenameExt q ".md") ≠ "index")
    (hsq : sanitizeFilename (basenameExt q ".md") = "")
    (hdir : dirname p = dirname q) :
    lastSeg (getOutputPath p) = ".html" ∧ getOutputPath p = getOutputPath q := by
  have hnp : outputNameOf p = "" := by
    unfold outputNameOf
    rw [if_neg hbp]
    exact hsp
  have hnq : outputNameOf q = "" := by
    unfold outputNameOf
    rw [if_neg hbq]
    exact hsq
  have hout : outSegs p = outSegs q := by
    unfold outSegs
    rw [hdir, hnp, hnq]
  constructor
  · unfold lastSeg
    rw [getOutputPath_eq]
    rw [splitSlash_joinSegs (outSegs_ne_nil p) (outSegs_no_slash p)]
    rw [outSegs_raw, hnp]
    rw [List.getLastD_concat]
    apply strEqOfData
    rw [String.data_append]
    rfl
  · rw [getOutputPath_eq, getOutputPath_eq, hout]

theorem c10_empty_stem_collision_witness :
    lastSeg (getOutputPath "a/!!!.md") = ".html"
    ∧ getOutputPath "a/!!!.md" = getOutputPath "a/???.md" := by
  exact c10_empty_stem_collision "a/!!!.md" "a/???.md"
    (by decide) (by decide) (by decide) (by decide) (by decide)

/-! ### Relative-path round trip (C2) -/

theorem cpl_le_left : ∀ (f t : List String), cpl f t ≤ f.length := by
  intro f
  induction f with
  | nil => intro t; simp [cpl]
  | cons a as ih =>
    intro t
    rcases t with _ | ⟨b, bs⟩
    · simp [cpl]
    · unfold cpl
      split
      · have := ih bs
        simp only [List.length_cons]
        omega
      · simp

theorem cpl_le_right : ∀ (f t : List String), cpl f t ≤ t.length := by
  intro f
  induction f with
  | nil => intro t; simp [cpl]
  | cons a as ih =>
    intro t
    rcases t with _ | ⟨b, bs⟩
    · simp [cpl]
    · unfold cpl
      split
      · have := ih bs
        simp only [List.length_cons]
        omega
      · simp

theorem cpl_take : ∀ (f t : List String), f.take (cpl f t) = t.take (cpl f t) := by
  intro f
  induction f with
  | nil => intro t; simp [cpl]
  | cons a as ih =>
    intro t
    rcases t with _ | ⟨b, bs⟩
    · simp [cpl]
    · unfold cpl
      split
      · rename_i hab
        simp only [List.take_succ_cons, hab, List.cons.injEq, true_and]
        exact ih bs
      · simp

/-- The central round trip: resolving the relative segment list from
`f` to `t` on top of `f` lands exactly on `t`. -/
theorem roundTripSegs (f t : List String) (hf : ∀ s ∈ f, goodSeg s = true)
    (ht : ∀ s ∈ t, goodSeg s = true) :
    normSegs [] (f ++ relativeSegs f t) = t := by
  have hk1 := cpl_le_left f t
  have hk2 := cpl_le_right f t
  have htake := cpl_take f t
  have hgoodtake : ∀ s ∈ f.take (cpl f t), goodSeg s = true :=
    fun s hs => hf s (List.mem_of_mem_take hs)
  have hgooddrop : ∀ s ∈ f.drop (cpl f t), goodSeg s = true :=
    fun s hs => hf s (List.mem_of_mem_drop hs)
  have hgooddropt : ∀ s ∈ t.drop (cpl f t), goodSeg s = true :=
    fun s hs => ht s (List.mem_of_mem_drop hs)
  unfold relativeSegs
  rw [normSegs_append f [], normSegs_all_good hf]
  rw [show f.reverse = (f.drop (cpl f t)).reverse ++ (f.take (cpl f t)).reverse from by
    rw [← List.reverse_append, List.take_append_drop]]
  rw [show f.length - cpl f t = (f.drop (cpl f t)).reverse.length from by
    rw [List.length_reverse, List.length_drop]]
  rw [normSegs_pop (g := (f.drop (cpl f t)).reverse) ?_ _ _]
  · have h1 : normSegs ((f.take (cpl f t)).reverse) (t.drop (cpl f t))
        = normSegs [] (f.take (cpl f t) ++ t.drop (cpl f t)) := by
      rw [normSegs_append, normSegs_all_good hgoodtake]
    rw [h1, htake]
    rw [List.take_append_drop]
    exact normSegs_all_good ht
  · intro s hs
    have hg := hgooddrop s (List.mem_reverse.mp hs)
    unfold goodSeg at hg
    simp only [Bool.and_eq_true, Bool.not_eq_true', decide_eq_false_iff_not] at hg
    exact hg.1.1.2

theorem backslashToSlash_id {s : String} (h : '\\' ∉ s.data) :
    backslashToSlash s = s := by
  apply strEqOfData
  unfold backslashToSlash
  rw [show (String.mk (s.data.map fun c => if c = '\\' then '/' else c)).data
      = s.data.map (fun c => if c = '\\' then '/' else c) from rfl]
  have hmc : ∀ c ∈ s.data, (if c = '\\' then '/' else c) = c := by
    intro c hc
    rw [if_neg]
    intro he
    exact h (he ▸ hc)
  have hmap : s.data.map (fun c => if c = '\\' then '/' else c)
      = s.data.map (fun c => c) := List.map_congr_left hmc
  simpa using hmap

theorem mem_joinCh {sep : Char} {c : Char} :
    ∀ {gs : List (List Char)}, c ∈ joinCh sep gs →
      c = sep ∨ ∃ g ∈ gs, c ∈ g := by
  intro gs
  induction gs with
  | nil => intro h; cases h
  | cons g rest ih =>
    intro h
    rcases rest with _ | ⟨g1, gs1⟩
    · exact Or.inr ⟨g, List.mem_cons_self _ _, h⟩
    · rw [show joinCh sep (g :: g1 :: gs1) = g ++ sep :: joinCh sep (g1 :: gs1)
        from rfl] at h
      rcases List.mem_append.mp h with h | h
      · exact Or.inr ⟨g, List.mem_cons_self _ _, h⟩
      · rcases List.mem_cons.mp h with h | h
        · exact Or.inl h
        · rcases ih h with h | ⟨g', hg', hc⟩
          · exact Or.inl h
          · exact Or.inr ⟨g', List.mem_cons_of_mem _ hg', hc⟩

theorem joinSegs_no_backslash {L : List String} (h : ∀ s ∈ L, '\\' ∉ s.data) :
    '\\' ∉ (joinSegs L).data := by
  unfold joinSegs
  intro hc
  rcases mem_joinCh hc with h1 | ⟨g, hg, hcg⟩
  · cases h1
  · rcases List.mem_map.mp hg with ⟨s, hs, rfl⟩
    exact h s hs hcg

theorem outSegs_two_le (p : String) : 2 ≤ (outSegs p).length := by
  rw [outSegs_raw]
  simp only [List.cons_append, List.length_cons]
  omega

theorem dirname_joinSegs {L : List String} (h2 : 2 ≤ L.length)
    (hfree : ∀ s ∈ L, '/' ∉ s.data) :
    dirname (joinSegs L) = joinSegs L.dropLast := by
  unfold dirname
  rw [splitSlash_joinSegs (by intro h; rw [h] at h2; simp at h2) hfree]
  rw [if_neg (by omega)]

/-- `wikiRepl` on a resolvable single-part reference emits the relative
link computed by `getRelativePath`. -/
theorem wikiRepl_resolved (files : List TFile) (cur : TFile) {t : String}
    (ht : '|' ∉ t.data) {B : TFile}
    (hfind : findTargetFile files (jsTrim t) = some B) :
    wikiRepl files cur t
      = "[" ++ jsTrim t ++ "]("
        ++ getRelativePath (getOutputPath cur.path) (getOutputPath B.path)
        ++ ")" := by
  have hch : ∀ c ∈ t.data, c ≠ '|' := fun c hc h => ht (h ▸ hc)
  have hsp : splitPipe t = [t] := by
    unfold splitPipe
    rw [splitCh_no_sep hch]
    rfl
  simp only [wikiRepl, hsp, List.headD_cons, List.drop_succ_cons, List.drop_nil, hfind]

/-- The round trip for two arbitrary document paths. -/
theorem outputRoundTrip (pA pB : String) :
    resolveAgainst (dirname (getOutputPath pA))
      (getRelativePath (getOutputPath pA) (getOutputPath pB))
      = getOutputPath pB := by
  have hfA := outSegs_good pA
  have hfB := outSegs_good pB
  have hslA := outSegs_no_slash pA
  have hslB := outSegs_no_slash pB
  have h2A := outSegs_two_le pA
  have hdropNe : (outSegs pA).dropLast ≠ [] := by
    intro h
    have := congrArg List.length h
    rw [List.length_dropLast] at this
    simp at this
    omega
  have hdropGood : ∀ s ∈ (outSegs pA).dropLast, goodSeg s = true :=
    fun s hs => hfA s (List.Sublist.mem hs (List.dropLast_sublist _))
  have hdropSl : ∀ s ∈ (outSegs pA).dropLast, '/' ∉ s.data :=
    fun s hs => hslA s (List.Sublist.mem hs (List.dropLast_sublist _))
  have hdir : dirname (getOutputPath pA) = joinSegs (outSegs pA).dropLast := by
    rw [getOutputPath_eq]
    exact dirname_joinSegs h2A hslA
  -- the normalized ends of the relative computation
  have hnormA : normSegs [] (splitSlash (joinSegs (outSegs pA).dropLast))
      = (outSegs pA).dropLast := by
    rw [splitSlash_joinSegs hdropNe hdropSl]
    exact normSegs_all_good hdropGood
  have hnormB : normSegs [] (splitSlash (joinSegs (outSegs pB)))
      = outSegs pB := by
    rw [splitSlash_joinSegs (outSegs_ne_nil pB) hslB]
    exact normSegs_all_good hfB
  have hrelSegsGood : ∀ s ∈ relativeSegs ((outSegs pA).dropLast) (outSegs pB),
      s = ".." ∨ s ∈ outSegs pB := by
    intro s hs
    unfold relativeSegs at hs
    rcases List.mem_append.mp hs with hs | hs
    · exact Or.inl (List.eq_of_mem_replicate hs)
    · exact Or.inr (List.mem_of_mem_drop hs)
  have hrelSl : ∀ s ∈ relativeSegs ((outSegs pA).dropLast) (outSegs pB),
      '/' ∉ s.data := by
    intro s hs
    rcases hrelSegsGood s hs with rfl | hm
    · decide
    · exact hslB s hm
  have hrelBs : ∀ s ∈ relativeSegs ((outSegs pA).dropLast) (outSegs pB),
      '\\' ∉ s.data := by
    intro s hs
    rcases hrelSegsGood s hs with rfl | hm
    · decide
    · have hg := hfB s hm
      unfold goodSeg at hg
      simp only [Bool.and_eq_true, Bool.not_eq_true', decide_eq_false_iff_not] at hg
      exact hg.2
  unfold getRelativePath relativePath
  rw [hdir, getOutputPath_eq pB, hnormA, hnormB]
  by_cases hempty :
      (relativeSegs ((outSegs pA).dropLast) (outSegs pB)).isEmpty = true
  · -- the two locations coincide
    rw [if_pos hempty]
    have he := List.isEmpty_iff.mp hempty
    unfold relativeSegs at he
    rcases List.append_eq_nil.mp he with ⟨h1, h2⟩
    have hlen1 : (outSegs pA).dropLast.length
        ≤ cpl ((outSegs pA).dropLast) (outSegs pB) := by
      have := congrArg List.length h1
      simp only [List.length_replicate, List.length_nil] at this
      omega
    have hlen2 : (outSegs pB).length ≤ cpl ((outSegs pA).dropLast) (outSegs pB) := by
      have := congrArg List.length h2
      simp only [List.length_drop, List.length_nil] at this
      omega
    have hk1 := cpl_le_left ((outSegs pA).dropLast) (outSegs pB)
    have hk2 := cpl_le_right ((outSegs pA).dropLast) (outSegs pB)
    have heq : (outSegs pA).dropLast = outSegs pB := by
      have htk := cpl_take ((outSegs pA).dropLast) (outSegs pB)
      rw [List.take_of_length_le (by omega), List.take_of_length_le (by omega)] at htk
      exact htk
    have hbs : backslashToSlash "" = "" := by decide
    rw [hbs]
    unfold resolveAgainst joinPath
    have hraw : concatMap splitSlash [joinSegs (outSegs pA).dropLast, ""]
        = splitSlash (joinSegs (outSegs pA).dropLast) ++ [""] := by
      unfold concatMap concatMap concatMap
      rw [show splitSlash "" = [""] from by decide]
      simp
    rw [hraw, splitSlash_joinSegs hdropNe hdropSl]
    have : normSegs [] ((outSegs pA).dropLast ++ [""])
        = (outSegs pA).dropLast := by
      rw [normSegs_append]
      rw [normSegs_all_good hdropGood]
      rw [normSegs_cons_empty]
      show normSegs ((outSegs pA).dropLast).reverse [] = (outSegs pA).dropLast
      simp [normSegs]
    rw [this]
    rw [if_neg (by rw [List.isEmpty_iff]; exact hdropNe)]
    rw [heq]
  · rw [if_neg hempty]
    have hrelNe : relativeSegs ((outSegs pA).dropLast) (outSegs pB) ≠ [] :=
      fun h => hempty (by rw [h]; rfl)
    rw [backslashToSlash_id (joinSegs_no_backslash hrelBs)]
    unfold resolveAgainst joinPath
    have hraw : concatMap splitSlash
        [joinSegs (outSegs pA).dropLast,
          joinSegs (relativeSegs ((outSegs pA).dropLast) (outSegs pB))]
        = splitSlash (joinSegs (outSegs pA).dropLast)
          ++ splitSlash (joinSegs (relativeSegs ((outSegs pA).dropLast) (outSegs pB))) := by
      unfold concatMap concatMap concatMap
      simp
    rw [hraw, splitSlash_joinSegs hdropNe hdropSl,
      splitSlash_joinSegs hrelNe hrelSl]
    rw [roundTripSegs _ _ hdropGood hfB]
    rw [if_neg (by rw [List.isEmpty_iff]; exact outSegs_ne_nil pB)]

/-- Claim C2: when a wiki reference in document A resolves to document
B, the emitted link is the relative path from A's output location to
B's, and resolving that relative link against the directory containing
A's output path yields exactly B's output path, at any folder depth. -/
theorem c2_reference_round_trip (files : List TFile) (A B : TFile) (t : String)
    (ht : '|' ∉ t.data) (hfind : findTargetFile files (jsTrim t) = some B) :
    wikiRepl files A t
      = "[" ++ jsTrim t ++ "]("
        ++ getRelativePath (getOutputPath A.path) (getOutputPath B.path) ++ ")"
    ∧ resolveAgainst (dirname (getOutputPath A.path))
        (getRelativePath (getOutputPath A.path) (getOutputPath B.path))
      = getOutputPath B.path :=
  ⟨wikiRepl_resolved files A ht hfind, outputRoundTrip A.path B.path⟩

theorem c2_reference_round_trip_witness :
    wikiRepl [⟨"index.md"⟩] ⟨"blog/post1.md"⟩ "index"
      = "[index]("
        ++ getRelativePath (getOutputPath "blog/post1.md") (getOutputPath "index.md")
        ++ ")"
    ∧ resolveAgainst (dirname (getOutputPath "blog/post1.md"))
        (getRelativePath (getOutputPath "blog/post1.md") (getOutputPath "index.md"))
      = getOutputPath "index.md" := by
  have h := c2_reference_round_trip [⟨"index.md"⟩] ⟨"blog/post1.md"⟩ ⟨"index.md"⟩
    "index" (by decide) (by decide)
  exact h

/-! ### Navigation completeness (C7): skeleton structure lemmas -/

theorem tfile_eq {d d2 : TFile} (h : d.path = d2.path) : d = d2 := by
  cases d
  cases d2
  simpa using h

theorem concatMap_append (f : α → List β) :
    ∀ (l₁ l₂ : List α), concatMap f (l₁ ++ l₂) = concatMap f l₁ ++ concatMap f l₂ := by
  intro l₁ l₂
  induction l₁ with
  | nil => rfl
  | cons x xs ih =>
    show f x ++ concatMap f (xs ++ l₂) = (f x ++ concatMap f xs) ++ concatMap f l₂
    rw [ih, List.append_assoc]

theorem skelForest_append (anc : List String) :
    ∀ (l₁ l₂ : List NavNode),
      skelForest anc (l₁ ++ l₂) = skelForest anc l₁ ++ skelForest anc l₂ := by
  intro l₁ l₂
  induction l₁ with
  | nil => rfl
  | cons x xs ih =>
    show skelNode anc x ++ skelForest anc (xs ++ l₂)
      = (skelNode anc x ++ skelForest anc xs) ++ skelForest anc l₂
    rw [ih, List.append_assoc]

theorem skelNode_childless (anc : List String) (n p o : String) (i : Bool) :
    skelNode anc (NavNode.mk n p o [] i) = [(anc, p, o)] := rfl

mutual

theorem skel_setNode (target outPath : String) :
    ∀ (n : NavNode) (anc : List String),
      skelNode anc (setAtNode target outPath n)
        = (skelNode anc n).map (updEntry target outPath)
  | .mk nm p o cs i => by
    intro anc
    by_cases hp : p = target
    · rw [show setAtNode target outPath (NavNode.mk nm p o cs i)
          = NavNode.mk nm p outPath (setAtForest target outPath cs) true from by
        unfold setAtNode
        rw [if_pos hp]]
      show (anc, p, outPath) :: skelForest (anc ++ [p]) (setAtForest target outPath cs)
        = ((anc, p, o) :: skelForest (anc ++ [p]) cs).map (updEntry target outPath)
      rw [List.map_cons, skel_setForest target outPath cs (anc ++ [p])]
      unfold updEntry
      rw [if_pos hp]
    · rw [show setAtNode target outPath (NavNode.mk nm p o cs i)
          = NavNode.mk nm p o (setAtForest target outPath cs) i from by
        unfold setAtNode
        rw [if_neg hp]]
      show (anc, p, o) :: skelForest (anc ++ [p]) (setAtForest target outPath cs)
        = ((anc, p, o) :: skelForest (anc ++ [p]) cs).map (updEntry target outPath)
      rw [List.map_cons, skel_setForest target outPath cs (anc ++ [p])]
      unfold updEntry
      rw [if_neg hp]

theorem skel_setForest (target outPath : String) :
    ∀ (l : List NavNode) (anc : List String),
      skelForest anc (setAtForest target outPath l)
        = (skelForest anc l).map (updEntry target outPath)
  | [] => by
    intro anc
    rfl
  | x :: xs => by
    intro anc
    show skelNode anc (setAtNode target outPath x)
        ++ skelForest anc (setAtForest target outPath xs)
      = (skelNode anc x ++ skelForest anc xs).map (updEntry target outPath)
    rw [List.map_append, skel_setNode target outPath x anc,
      skel_setForest target outPath xs anc]

end

theorem append_eq_singleton_cases {α : Type} {a b : List α} {e : α}
    (h : a ++ b = [e]) : (a = [e] ∧ b = []) ∨ (a = [] ∧ b = [e]) := by
  rcases a with _ | ⟨x, xs⟩
  · right
    exact ⟨rfl, by simpa using h⟩
  · left
    rcases xs with _ | ⟨y, ys⟩
    · simp only [List.cons_append, List.nil_append, List.cons.injEq] at h
      rcases h with ⟨rfl, h2⟩
      exact ⟨rfl, h2⟩
    · simp only [List.cons_append, List.cons.injEq] at h
      rcases h with ⟨-, h2⟩
      exact absurd h2 (by simp)

mutual

theorem push_skelNode_nomatch (target : String) (child : NavNode) :
    ∀ (n : NavNode) (anc : List String),
      (skelNode anc n).filter (fun e => e.2.1 = target) = [] →
      skelNode anc (pushAtNode target child n) = skelNode anc n
  | .mk nm p o cs i => by
    intro anc hfil
    have hcons : (skelNode anc (NavNode.mk nm p o cs i)).filter
        (fun e => e.2.1 = target)
        = ((anc, p, o) :: skelForest (anc ++ [p]) cs).filter
          (fun e => e.2.1 = target) := rfl
    rw [hcons, List.filter_cons] at hfil
    by_cases hp : p = target
    · rw [if_pos (by simpa using hp)] at hfil
      cases hfil
    · rw [if_neg (by simpa using hp)] at hfil
      rw [show pushAtNode target child (NavNode.mk nm p o cs i)
          = NavNode.mk nm p o (pushAtForest target child cs) i from by
        unfold pushAtNode
        rw [if_neg hp]]
      show (anc, p, o) :: skelForest (anc ++ [p]) (pushAtForest target child cs)
        = (anc, p, o) :: skelForest (anc ++ [p]) cs
      rw [push_skelForest_nomatch target child cs (anc ++ [p]) hfil]

theorem push_skelForest_nomatch (target : String) (child : NavNode) :
    ∀ (l : List NavNode) (anc : List String),
      (skelForest anc l).filter (fun e => e.2.1 = target) = [] →
      skelForest anc (pushAtForest target child l) = skelForest anc l
  | [] => by
    intro anc _
    rfl
  | x :: xs => by
    intro anc hfil
    have hsplit : (skelNode anc x).filter (fun e => e.2.1 = target)
        ++ (skelForest anc xs).filter (fun e => e.2.1 = target) = [] := by
      rw [← List.filter_append]
      exact hfil
    rcases List.append_eq_nil.mp hsplit with ⟨h1, h2⟩
    show skelNode anc (pushAtNode target child x)
        ++ skelForest anc (pushAtForest target child xs)
      = skelNode anc x ++ skelForest anc xs
    rw [push_skelNode_nomatch target child x anc h1,
      push_skelForest_nomatch target child xs anc h2]

end

theorem skelNode_of_childless {child : NavNode} (hch : child.children = [])
    (anc : List String) :
    skelNode anc child = [(anc, child.path, child.outputPath)] := by
  rcases child with ⟨nm, p, o, cs, i⟩
  have : cs = [] := hch
  subst this
  rfl

mutual

theorem push_skelNode_match (target : String) (child : NavNode)
    (hch : child.children = []) :
    ∀ (n : NavNode) (anc ancT : List String) (oT : String),
      (skelNode anc n).filter (fun e => e.2.1 = target) = [(ancT, target, oT)] →
      (skelNode anc (pushAtNode target child n)).Perm
        ((ancT ++ [target], child.path, child.outputPath) :: skelNode anc n)
  | .mk nm p o cs i => by
    intro anc ancT oT hfil
    have hcons : (skelNode anc (NavNode.mk nm p o cs i)).filter
        (fun e => e.2.1 = target)
        = ((anc, p, o) :: skelForest (anc ++ [p]) cs).filter
          (fun e => e.2.1 = target) := rfl
    rw [hcons, List.filter_cons] at hfil
    by_cases hp : p = target
    · rw [if_pos (by simpa using hp)] at hfil
      simp only [List.cons.injEq, Prod.mk.injEq] at hfil
      obtain ⟨⟨hanc, -, ho⟩, hrest⟩ := hfil
      rw [show pushAtNode target child (NavNode.mk nm p o cs i)
          = NavNode.mk nm p o (pushAtForest target child cs ++ [child]) i from by
        unfold pushAtNode
        rw [if_pos hp]]
      show ((anc, p, o) :: skelForest (anc ++ [p])
          (pushAtForest target child cs ++ [child])).Perm
        ((ancT ++ [target], child.path, child.outputPath)
          :: (anc, p, o) :: skelForest (anc ++ [p]) cs)
      rw [skelForest_append, push_skelForest_nomatch target child cs (anc ++ [p]) hrest,
        show skelForest (anc ++ [p]) [child]
          = [(anc ++ [p], child.path, child.outputPath)] from by
          show skelNode (anc ++ [p]) child ++ [] = _
          rw [skelNode_of_childless hch]
          rfl]
      subst hanc
      rw [← hp]
      refine List.Perm.trans (List.Perm.cons _ ?_) (List.Perm.swap _ _ _)
      simpa using (@List.perm_middle _
        ((anc ++ [p], child.path, child.outputPath))
        (skelForest (anc ++ [p]) cs) []).symm
    · rw [if_neg (by simpa using hp)] at hfil
      rw [show pushAtNode target child (NavNode.mk nm p o cs i)
          = NavNode.mk nm p o (pushAtForest target child cs) i from by
        unfold pushAtNode
        rw [if_neg hp]]
      show ((anc, p, o) :: skelForest (anc ++ [p])
          (pushAtForest target child cs)).Perm
        ((ancT ++ [target], child.path, child.outputPath)
          :: (anc, p, o) :: skelForest (anc ++ [p]) cs)
      refine List.Perm.trans
        (List.Perm.cons _ (push_skelForest_match target child hch cs (anc ++ [p])
          ancT oT hfil))
        (List.Perm.swap _ _ _)

theorem push_skelForest_match (target : String) (child : NavNode)
    (hch : child.children = []) :
    ∀ (l : List NavNode) (anc ancT : List String) (oT : String),
      (skelForest anc l).filter (fun e => e.2.1 = target) = [(ancT, target, oT)] →
      (skelForest anc (pushAtForest target child l)).Perm
        ((ancT ++ [target], child.path, child.outputPath) :: skelForest anc l)
  | [] => by
    intro anc ancT oT hfil
    cases hfil
  | x :: xs => by
    intro anc ancT oT hfil
    have hsplit : (skelNode anc x).filter (fun e => e.2.1 = target)
        ++ (skelForest anc xs).filter (fun e => e.2.1 = target)
        = [(ancT, target, oT)] := by
      rw [← List.filter_append]
      exact hfil
    show (skelNode anc (pushAtNode target child x)
        ++ skelForest anc (pushAtForest target child xs)).Perm
      ((ancT ++ [target], child.path, child.outputPath)
        :: (skelNode anc x ++ skelForest anc xs))
    rcases append_eq_singleton_cases hsplit with ⟨h1, h2⟩ | ⟨h1, h2⟩
    · rw [push_skelForest_nomatch target child xs anc h2]
      refine List.Perm.trans
        (List.Perm.append_right _ (push_skelNode_match target child hch x anc
          ancT oT h1)) ?_
      rw [List.cons_append]
    · rw [push_skelNode_nomatch target child x anc h1]
      refine List.Perm.trans
        (List.Perm.append_left _ (push_skelForest_match target child hch xs anc
          ancT oT h2)) ?_
      exact List.perm_middle

end

/-! ### Navigation completeness (C7): chain-path lemmas -/

theorem joinCh_cons (sep : Char) (g : List Char) (gs : List (List Char)) :
    joinCh sep (g :: gs) = g ++ (if gs = [] then [] else sep :: joinCh sep gs) := by
  rcases gs with _ | ⟨g1, gs1⟩
  · simp [joinCh]
  · rfl

theorem joinSegs_singleton (x : String) : joinSegs [x] = x := by
  apply strEqOfData
  rfl

theorem joinSegs_snoc {l : List String} (h : l ≠ []) (x : String) :
    joinSegs (l ++ [x]) = joinSegs l ++ "/" ++ x := by
  apply strEqOfData
  unfold joinSegs
  rw [show (String.mk (joinCh '/' ((l ++ [x]).map String.data))).data
      = joinCh '/' ((l ++ [x]).map String.data) from rfl]
  rw [List.map_append]
  rw [show (List.map String.data [x]) = [x.data] from rfl]
  rw [joinCh_snoc (by simpa using h)]
  rw [String.data_append, String.data_append]
  rw [show ("/" : String).data = ['/'] from rfl, List.append_assoc]
  rfl

theorem joinSegs_ne_empty {l : List String} (h : l ≠ [])
    (hne : ∀ s ∈ l, s ≠ "") : joinSegs l ≠ "" := by
  rcases l with _ | ⟨g, gs⟩
  · exact absurd rfl h
  · intro heq
    have hd : (joinSegs (g :: gs)).data = [] := by
      rw [heq]
    unfold joinSegs at hd
    rw [show (String.mk (joinCh '/' ((g :: gs).map String.data))).data
        = joinCh '/' ((g :: gs).map String.data) from rfl] at hd
    rw [List.map_cons, joinCh_cons] at hd
    rcases List.append_eq_nil.mp hd with ⟨h1, -⟩
    exact data_ne_nil (hne g (List.mem_cons_self _ _)) h1

theorem chainPaths_nil : chainPaths [] = [] := rfl

theorem chainPaths_snoc (l : List String) (x : String) :
    chainPaths (l ++ [x]) = chainPaths l ++ [joinSegs (l ++ [x])] := by
  unfold chainPaths
  rw [List.length_append, List.length_singleton, List.range_succ, List.map_append]
  congr 1
  · apply List.map_congr_left
    intro i hi
    have hi' : i < l.length := List.mem_range.mp hi
    rw [List.take_append_of_le_length (by omega)]
  · simp
    rw [List.take_of_length_le (by simp)]

theorem ancList_eq_chainPaths (segs : List String) :
    ancList segs = chainPaths segs.dropLast := by
  unfold ancList chainPaths
  rw [List.length_dropLast]
  apply List.map_congr_left
  intro i hi
  have hi' : i < segs.length - 1 := List.mem_range.mp hi
  rw [List.dropLast_eq_take, List.take_take]
  rw [Nat.min_eq_left (by omega)]

theorem chainPaths_prefix_subset {pre rest : List String} {c : String}
    (hc : c ∈ chainPaths pre) : c ∈ chainPaths (pre ++ rest) := by
  unfold chainPaths at *
  rcases List.mem_map.mp hc with ⟨i, hi, rfl⟩
  have hi' : i < pre.length := List.mem_range.mp hi
  refine List.mem_map.mpr ⟨i, ?_, ?_⟩
  · rw [List.mem_range, List.length_append]
    omega
  · rw [List.take_append_of_le_length (by omega)]

theorem joinSegs_mem_chainPaths {l : List String} (h : l ≠ []) :
    joinSegs l ∈ chainPaths l := by
  have hpos : 0 < l.length := List.length_pos.mpr h
  unfold chainPaths
  refine List.mem_map.mpr ⟨l.length - 1, List.mem_range.mpr (by omega), ?_⟩
  have hlen : l.length - 1 + 1 = l.length := by omega
  rw [hlen, List.take_length]

theorem cumDirs_eq_chainPaths (p : String) :
    cumDirs p = chainPaths (splitSlash p).dropLast :=
  ancList_eq_chainPaths (splitSlash p)

theorem navDirOf_mem_cumDirs {d : TFile} (h2 : 2 ≤ (splitSlash d.path).length) :
    navDirOf d ∈ cumDirs d.path := by
  rw [cumDirs_eq_chainPaths]
  unfold navDirOf
  refine joinSegs_mem_chainPaths ?_
  intro h
  have := congrArg List.length h
  rw [List.length_dropLast] at this
  simp at this
  omega

theorem getOutputPath_ne_empty (p : String) : getOutputPath p ≠ "" := by
  rw [getOutputPath_eq]
  refine joinSegs_ne_empty (outSegs_ne_nil p) ?_
  intro s hs
  have hg := outSegs_good p s hs
  unfold goodSeg at hg
  simp only [Bool.and_eq_true, Bool.not_eq_true', decide_eq_false_iff_not] at hg
  exact hg.1.1.1.1

theorem dirname_eq_navDirOf {d : TFile} (h2 : 2 ≤ (splitSlash d.path).length) :
    dirname d.path = navDirOf d := by
  unfold dirname navDirOf
  rw [if_neg (by omega)]

/-- `getOutputPath` depends only on the source directory and the output
base name. -/
theorem getOutputPath_congr {p q : String} (hdir : dirname p = dirname q)
    (hname : outputNameOf p = outputNameOf q) :
    getOutputPath p = getOutputPath q := by
  rw [getOutputPath_eq, getOutputPath_eq]
  unfold outSegs
  rw [hdir, hname]

theorem find_append (p : α → Bool) :
    ∀ (l₁ l₂ : List α), (l₁ ++ l₂).find? p
      = match l₁.find? p with
        | some a => some a
        | none => l₂.find? p := by
  intro l₁ l₂
  induction l₁ with
  | nil => simp
  | cons x xs ih =>
    by_cases hx : p x
    · simp [List.find?_cons, hx]
    · simp only [List.cons_append, List.find?_cons, hx]
      exact ih

theorem filter_eq_singleton_of_nodup {α : Type} [DecidableEq α] :
    ∀ {l : List α}, l.Nodup → ∀ {a : α}, a ∈ l →
      l.filter (fun x => x = a) = [a] := by
  intro l
  induction l with
  | nil => intro _ a ha; cases ha
  | cons x xs ih =>
    intro hnd a ha
    have hx : x ∉ xs := (List.nodup_cons.mp hnd).1
    have hnd' : xs.Nodup := (List.nodup_cons.mp hnd).2
    rw [List.filter_cons]
    rcases List.mem_cons.mp ha with rfl | ha'
    · rw [if_pos (by simp)]
      have hnone : xs.filter (fun x => x = a) = [] := by
        rw [List.filter_eq_nil]
        intro b hb hba
        exact hx (by simpa using (by simpa using hba : b = a) ▸ hb)
      rw [hnone]
    · have hax : ¬(x = a) := fun h => hx (h ▸ ha')
      rw [if_neg (by simpa using hax)]
      exact ih hnd' ha'

theorem insertFile_perm (f : TFile) : ∀ (l : List TFile),
    (insertFile f l).Perm (f :: l) := by
  intro l
  induction l with
  | nil => exact List.Perm.refl _
  | cons g gs ih =>
    unfold insertFile
    split
    · exact List.Perm.refl _
    · exact List.Perm.trans (List.Perm.cons g ih) (List.Perm.swap _ _ _)

theorem chainPaths_take (l : List String) (k : Nat) :
    chainPaths (l.take k) = (chainPaths l).take k := by
  unfold chainPaths
  rw [List.length_take, ← List.map_take, List.take_range]
  apply List.map_congr_left
  intro i hi
  have hi' : i < min k l.length := List.mem_range.mp hi
  rw [List.take_take, Nat.min_eq_left (by omega)]

theorem chainPaths_eq_ancList {l : List String} (h : l ≠ []) :
    chainPaths l = ancList l ++ [joinSegs l] := by
  have h2 := List.dropLast_append_getLast h
  calc chainPaths l = chainPaths (l.dropLast ++ [l.getLast h]) := by rw [h2]
    _ = chainPaths l.dropLast ++ [joinSegs (l.dropLast ++ [l.getLast h])] :=
        chainPaths_snoc _ _
    _ = ancList l ++ [joinSegs l] := by rw [h2, ancList_eq_chainPaths]

theorem mem_concatMap {f : α → List β} {b : β} :
    ∀ {l : List α}, b ∈ concatMap f l ↔ ∃ a ∈ l, b ∈ f a := by
  intro l
  induction l with
  | nil => simp [concatMap]
  | cons x xs ih => simp [concatMap, ih]

theorem filter_of_map (p : β → Bool) (f : α → β) :
    ∀ (l : List α), (l.map f).filter p = (l.filter (fun x => p (f x))).map f := by
  intro l
  induction l with
  | nil => rfl
  | cons x xs ih =>
    simp only [List.map_cons, List.filter_cons]
    by_cases hx : p (f x)
    · rw [if_pos hx, if_pos hx, List.map_cons, ih]
    · rw [if_neg hx, if_neg hx, ih]

theorem idxOut_append_nomatch {f : TFile} {c : String}
    (hf : idxPred c f = false) (done : List TFile) :
    idxOut (done ++ [f]) c = idxOut done c := by
  unfold idxOut
  rw [find_append]
  cases hfind : done.find? (idxPred c) with
  | none =>
    rw [show [f].find? (idxPred c) = none from by simp [List.find?_cons, hf]]
  | some d => rfl

theorem idxOut_append_match {f : TFile} {c : String}
    (hf : idxPred c f = true) {done : List TFile}
    (hnone : done.find? (idxPred c) = none) :
    idxOut (done ++ [f]) c = getOutputPath f.path := by
  unfold idxOut
  rw [find_append, hnone]
  rw [show [f].find? (idxPred c) = some f from by simp [List.find?_cons, hf]]

theorem idxOut_eq_empty {done : List TFile} {c : String}
    (h : ∀ d ∈ done, idxPred c d = false) : idxOut done c = "" := by
  unfold idxOut
  rw [List.find?_eq_none.mpr (by intro d hd; simp [h d hd])]

theorem skel_filter_path {forest : List NavNode} {created : List String}
    {done : List TFile} {c : String}
    (hperm : (skelForest [] forest).Perm
      (created.map (dirEntry done) ++ (done.filter leafKeep).map leafEntry))
    (hnd : created.Nodup) (hc : c ∈ created)
    (hleaf : ∀ d ∈ done, d.path ≠ c) :
    (skelForest [] forest).filter (fun e => e.2.1 = c) = [dirEntry done c] := by
  have h1 : (created.map (dirEntry done)
      ++ (done.filter leafKeep).map leafEntry).filter (fun e => e.2.1 = c)
      = [dirEntry done c] := by
    rw [List.filter_append, filter_of_map, filter_of_map]
    have h2 : created.filter (fun x => decide ((dirEntry done x).2.1 = c))
        = created.filter (fun x => x = c) := by
      apply List.filter_congr
      intro x _
      simp [dirEntry]
    rw [h2, filter_eq_singleton_of_nodup hnd hc]
    have h3 : (done.filter leafKeep).filter
        (fun d => decide ((leafEntry d).2.1 = c)) = [] := by
      rw [List.filter_eq_nil]
      intro d hd
      simp only [leafEntry, decide_eq_true_eq]
      exact hleaf d (List.mem_of_mem_filter hd)
    rw [h3]
    rfl
  have h3 := (hperm.filter (fun e => e.2.1 = c))
  rw [h1] at h3
  exact List.perm_singleton.mp h3

theorem startsWithCh_exists : ∀ {pat l : List Char},
    startsWithCh pat l = true → ∃ t, l = pat ++ t := by
  intro pat
  induction pat with
  | nil => intro l _; exact ⟨l, rfl⟩
  | cons p ps ih =>
    intro l h
    cases l with
    | nil => simp [startsWithCh] at h
    | cons c cs =>
      simp only [startsWithCh, Bool.and_eq_true, decide_eq_true_eq] at h
      obtain ⟨t, ht⟩ := ih h.2
      exact ⟨t, by rw [ht, h.1]; rfl⟩

theorem endsWithCh_exists {l pat : List Char} (h : endsWithCh l pat = true) :
    ∃ xs, l = xs ++ pat := by
  unfold endsWithCh at h
  obtain ⟨t, ht⟩ := startsWithCh_exists h
  refine ⟨t.reverse, ?_⟩
  have h2 := congrArg List.reverse ht
  simpa using h2

theorem dropExt_of_md {p : String} {xs : List Char}
    (h : (lastSeg p).data = xs ++ ['.', 'm', 'd']) :
    tfBasename ⟨p⟩ = String.mk xs := by
  have h1 : tfBasename ⟨p⟩ = dropExt (lastSeg p) := rfl
  rw [h1]
  unfold dropExt
  rw [if_pos (by rw [h]; simp)]
  rw [h, List.reverse_append]
  rw [show (['.', 'm', 'd'] : List Char).reverse = ['d', 'm', '.'] from rfl]
  rw [show List.dropWhile (fun c => c ≠ '.') (['d', 'm', '.'] ++ xs.reverse)
      = '.' :: xs.reverse from by
    show List.dropWhile (fun c => c ≠ '.') ('d' :: 'm' :: '.' :: xs.reverse)
      = '.' :: xs.reverse
    rw [List.dropWhile_cons, if_pos (by decide), List.dropWhile_cons,
      if_pos (by decide), List.dropWhile_cons, if_neg (by decide)]]
  simp

theorem basenameExt_of_md {p : String} {xs : List Char} (hxs : xs ≠ [])
    (h : (lastSeg p).data = xs ++ ['.', 'm', 'd']) :
    basenameExt p ".md" = String.mk xs := by
  unfold basenameExt
  have hend : endsWithCh (lastSeg p).data (String.data ".md") = true := by
    rw [h]
    exact endsWithCh_self_append _ _
  have hlen : (lastSeg p).data.length = xs.length + 3 := by rw [h]; simp
  rw [if_pos (by
    rw [Bool.and_eq_true]
    refine ⟨hend, ?_⟩
    simp only [decide_eq_true_eq, hlen]
    rw [show (String.data ".md").length = 3 from rfl]
    have := List.length_pos.mpr hxs
    omega)]
  rw [hlen, h, show (String.data ".md").length = 3 from rfl, Nat.add_sub_cancel,
    List.take_left]

theorem basenameExt_of_md_nil {p : String}
    (h : (lastSeg p).data = ['.', 'm', 'd']) :
    basenameExt p ".md" = lastSeg p := by
  unfold basenameExt
  rw [if_neg (by
    rw [Bool.and_eq_true]
    rintro ⟨-, h2⟩
    rw [decide_eq_true_eq, h] at h2
    simp at h2)]

theorem md_idx_iff {p : String}
    (hmd : endsWithCh (lastSeg p).data (String.data ".md") = true) :
    (jsToLower (tfBasename ⟨p⟩) = "index")
      ↔ (jsToLower (basenameExt p ".md") = "index") := by
  obtain ⟨xs, hxs⟩ := endsWithCh_exists hmd
  by_cases hne : xs = []
  · subst hne
    rw [dropExt_of_md hxs, basenameExt_of_md_nil hxs]
    rw [strEqOfData (a := lastSeg p) (b := ".md") (by rw [hxs]; rfl)]
    constructor
    · intro h2; exact absurd h2 (by decide)
    · intro h2; exact absurd h2 (by decide)
  · rw [dropExt_of_md hxs, basenameExt_of_md hne hxs]

theorem sameDirIdx_out {d d2 : TFile}
    (hmd : endsWithCh (lastSeg d.path).data (String.data ".md") = true)
    (hmd2 : endsWithCh (lastSeg d2.path).data (String.data ".md") = true)
    (hi : isIdxDoc d = true) (hi2 : isIdxDoc d2 = true)
    (hl : 2 ≤ (splitSlash d.path).length) (hl2 : 2 ≤ (splitSlash d2.path).length)
    (hdir : navDirOf d = navDirOf d2) :
    getOutputPath d.path = getOutputPath d2.path := by
  have hi' : jsToLower (tfBasename d) = "index" := by
    unfold isIdxDoc at hi
    exact of_decide_eq_true hi
  have hi2' : jsToLower (tfBasename d2) = "index" := by
    unfold isIdxDoc at hi2
    exact of_decide_eq_true hi2
  apply getOutputPath_congr
  · rw [dirname_eq_navDirOf hl, dirname_eq_navDirOf hl2, hdir]
  · unfold outputNameOf
    rw [if_pos ((md_idx_iff hmd).mp hi'), if_pos ((md_idx_iff hmd2).mp hi2')]

theorem parentOf_step {pre : List String} {seg : String}
    (hpre : ∀ s ∈ pre, s ≠ "") :
    (if parentOf pre = "" then seg else parentOf pre ++ "/" ++ seg)
      = joinSegs (pre ++ [seg]) := by
  by_cases h : pre = []
  · subst h
    rw [show parentOf ([] : List String) = "" from rfl, if_pos rfl]
    show seg = joinSegs [seg]
    rw [joinSegs_singleton]
  · rw [show parentOf pre = joinSegs pre from by unfold parentOf; rw [if_neg h]]
    rw [if_neg (joinSegs_ne_empty h hpre), joinSegs_snoc h]

theorem perm_snoc_middle (x : α) {S A L : List α} (h : S.Perm (A ++ L)) :
    (S ++ [x]).Perm ((A ++ [x]) ++ L) := by
  have p1 : (S ++ [x]).Perm ((A ++ L) ++ [x]) := h.append_right _
  have p2 : ((A ++ L) ++ [x]).Perm (x :: (A ++ L)) := by
    have h2 := @List.perm_middle _ x (A ++ L) []
    simpa using h2
  have p3 : (x :: (A ++ L)).Perm ((A ++ [x]) ++ L) := by
    rw [List.append_assoc]
    exact (@List.perm_middle _ x A L).symm
  exact (p1.trans p2).trans p3

theorem perm_cons_middle (x : α) {S A L : List α} (h : S.Perm (x :: (A ++ L))) :
    S.Perm ((A ++ [x]) ++ L) := by
  have p3 : (x :: (A ++ L)).Perm ((A ++ [x]) ++ L) := by
    rw [List.append_assoc]
    exact (@List.perm_middle _ x A L).symm
  exact h.trans p3

theorem idxOut_empty_of_not_prefix {done : List TFile} {c : String}
    (h : c ∉ allPrefixes done) : idxOut done c = "" := by
  apply idxOut_eq_empty
  intro d hd
  by_contra hne
  have hp : idxPred c d = true := by
    cases hp2 : idxPred c d
    · exact absurd hp2 hne
    · rfl
  unfold idxPred at hp
  simp only [Bool.and_eq_true, decide_eq_true_eq] at hp
  exact h (mem_concatMap.mpr ⟨d, hd, hp.2 ▸ navDirOf_mem_cumDirs hp.1.2⟩)

theorem skelForest_singleton (anc : List String) (x : NavNode) :
    skelForest anc [x] = skelNode anc x := by
  simp [skelForest]

/-- The inner folder-chain loop of `buildNavigationTree`: consuming the
remaining directory segments extends the `dirMap` key set by exactly the
missing cumulative paths, keeps it duplicate-free, and adds one empty
folder node (with the correct ancestor chain) to the skeleton for each
newly created key. -/
theorem ensureChain_spec (done : List TFile) :
    ∀ (rest pre : List String) (forest : List NavNode) (created : List String),
      (∀ s ∈ pre ++ rest, s ≠ "" ∧ '/' ∉ s.data) →
      (∀ c, c ∈ created ↔ c ∈ allPrefixes done ∨ c ∈ chainPaths pre) →
      created.Nodup →
      (skelForest [] forest).Perm
        (created.map (dirEntry done) ++ (done.filter leafKeep).map leafEntry) →
      (∀ d ∈ done, d.path ∉ allPrefixes done ∧ d.path ∉ chainPaths (pre ++ rest)) →
      (ensureChain rest (parentOf pre) forest created).2.2 = parentOf (pre ++ rest)
      ∧ (∀ c, c ∈ (ensureChain rest (parentOf pre) forest created).2.1 ↔
          c ∈ allPrefixes done ∨ c ∈ chainPaths (pre ++ rest))
      ∧ (ensureChain rest (parentOf pre) forest created).2.1.Nodup
      ∧ (skelForest [] (ensureChain rest (parentOf pre) forest created).1).Perm
          ((ensureChain rest (parentOf pre) forest created).2.1.map (dirEntry done)
            ++ (done.filter leafKeep).map leafEntry) := by
  intro rest
  induction rest with
  | nil =>
    intro pre forest created h1 h2 h3 h4 h5
    rw [List.append_nil]
    exact ⟨rfl, h2, h3, h4⟩
  | cons seg rest' ih =>
    intro pre forest created h1 h2 h3 h4 h5
    have hpre_ne : ∀ s ∈ pre, s ≠ "" := fun s hs =>
      (h1 s (List.mem_append.mpr (Or.inl hs))).1
    have hseg := h1 seg (List.mem_append.mpr (Or.inr (List.mem_cons_self _ _)))
    have hcp : (if parentOf pre = "" then seg else parentOf pre ++ "/" ++ seg)
        = joinSegs (pre ++ [seg]) := parentOf_step hpre_ne
    have hgood1 : pre ++ [seg] ≠ [] := by simp
    have hgoodSl : ∀ s ∈ pre ++ [seg], '/' ∉ s.data := by
      intro s hs
      rcases List.mem_append.mp hs with hs | hs
      · exact (h1 s (List.mem_append.mpr (Or.inl hs))).2
      · rw [List.mem_singleton.mp hs]; exact hseg.2
    have hsplit : splitSlash (joinSegs (pre ++ [seg])) = pre ++ [seg] :=
      splitSlash_joinSegs hgood1 hgoodSl
    have hpar : parentOf (pre ++ [seg]) = joinSegs (pre ++ [seg]) := by
      unfold parentOf

      rw [if_neg hgood1]
    have hassoc : pre ++ seg :: rest' = (pre ++ [seg]) ++ rest' := by simp
    rw [hassoc] at h1 h5 ⊢
    simp only [ensureChain]
    rw [hcp]
    by_cases hmem : joinSegs (pre ++ [seg]) ∈ created
    · rw [if_pos hmem]
      have h2' : ∀ c, c ∈ created ↔
          c ∈ allPrefixes done ∨ c ∈ chainPaths (pre ++ [seg]) := by
        intro c
        rw [chainPaths_snoc, List.mem_append, List.mem_singleton]
        constructor
        · intro hc
          rcases (h2 c).mp hc with h | h
          · exact Or.inl h
          · exact Or.inr (Or.inl h)
        · rintro (h | h | h)
          · exact (h2 c).mpr (Or.inl h)
          · exact (h2 c).mpr (Or.inr h)
          · rw [h]; exact hmem
      have hres := ih (pre ++ [seg]) forest created h1 h2' h3 h4 h5
      rw [hpar] at hres
      exact hres
    · rw [if_neg hmem]
      have hnpref : joinSegs (pre ++ [seg]) ∉ allPrefixes done := fun hin =>
        hmem ((h2 _).mpr (Or.inl hin))
      have hidx : idxOut done (joinSegs (pre ++ [seg])) = "" :=
        idxOut_empty_of_not_prefix hnpref
      have hancNew : ancList (splitSlash (joinSegs (pre ++ [seg])))
          = chainPaths pre := by
        rw [hsplit, ancList_eq_chainPaths, List.dropLast_concat]
      have hdirE : dirEntry done (joinSegs (pre ++ [seg]))
          = (chainPaths pre, joinSegs (pre ++ [seg]), "") := by
        unfold dirEntry
        rw [hancNew, hidx]
      have h2' : ∀ c, c ∈ created ++ [joinSegs (pre ++ [seg])] ↔
          c ∈ allPrefixes done ∨ c ∈ chainPaths (pre ++ [seg]) := by
        intro c
        rw [chainPaths_snoc, List.mem_append, List.mem_append, List.mem_singleton,
          h2 c]
        tauto
      have h3' : (created ++ [joinSegs (pre ++ [seg])]).Nodup := by
        rw [List.nodup_append]
        refine ⟨h3, List.nodup_singleton _, ?_⟩
        intro a ha hb
        rw [List.mem_singleton] at hb
        exact hmem (hb ▸ ha)
      by_cases hroot : parentOf pre = ""
      · rw [if_pos hroot]
        have hpre0 : pre = [] := by
          by_contra hne
          unfold parentOf at hroot
          rw [if_neg hne] at hroot
          exact joinSegs_ne_empty hne hpre_ne hroot
        subst hpre0
        have hdirE0 : dirEntry done (joinSegs ([] ++ [seg]))
            = (([] : List String), joinSegs ([] ++ [seg]), "") := by
          rw [hdirE]
          simp [chainPaths]
        have hperm' : (skelForest []
            (forest ++ [NavNode.mk seg (joinSegs ([] ++ [seg])) "" [] false])).Perm
            ((created ++ [joinSegs ([] ++ [seg])]).map (dirEntry done)
              ++ (done.filter leafKeep).map leafEntry) := by
          rw [skelForest_append, skelForest_singleton, skelNode_childless,
            List.map_append, List.map_singleton, ← hdirE0]
          exact perm_snoc_middle _ h4
        have hres := ih ([] ++ [seg])
          (forest ++ [NavNode.mk seg (joinSegs ([] ++ [seg])) "" [] false])
          (created ++ [joinSegs ([] ++ [seg])]) h1 h2' h3' hperm' h5
        rw [hpar] at hres
        exact hres
      · rw [if_neg hroot]
        have hpne : pre ≠ [] := by
          intro h0
          subst h0
          exact hroot rfl
        have hparpre : parentOf pre = joinSegs pre := by
          unfold parentOf
          rw [if_neg hpne]
        have hjp : joinSegs pre ∈ created :=
          (h2 _).mpr (Or.inr (joinSegs_mem_chainPaths hpne))
        have hleafne : ∀ d ∈ done, d.path ≠ joinSegs pre := by
          intro d hd hdp
          apply (h5 d hd).2
          rw [List.append_assoc, hdp]
          exact chainPaths_prefix_subset (joinSegs_mem_chainPaths hpne)
        have hfilt' : (skelForest [] forest).filter
            (fun e => e.2.1 = joinSegs pre)
            = [(ancList (splitSlash (joinSegs pre)), joinSegs pre,
                idxOut done (joinSegs pre))] := skel_filter_path h4 h3 hjp hleafne
        have hpush := push_skelForest_match (joinSegs pre)
          (NavNode.mk seg (joinSegs (pre ++ [seg])) "" [] false) rfl forest []
          (ancList (splitSlash (joinSegs pre))) (idxOut done (joinSegs pre)) hfilt'
        simp only [NavNode.path, NavNode.outputPath] at hpush
        have hprene : ∀ s ∈ pre, '/' ∉ s.data := fun s hs =>
          hgoodSl s (List.mem_append.mpr (Or.inl hs))
        have hanc2 : ancList (splitSlash (joinSegs pre)) ++ [joinSegs pre]
            = chainPaths pre := by
          rw [splitSlash_joinSegs hpne hprene, ← chainPaths_eq_ancList hpne]
        have hentry : ((ancList (splitSlash (joinSegs pre)) ++ [joinSegs pre],
            joinSegs (pre ++ [seg]), "") : SkelEntry)
            = dirEntry done (joinSegs (pre ++ [seg])) := by
          rw [hanc2, hdirE]
        rw [hentry] at hpush
        have hperm' : (skelForest [] (pushAtForest (parentOf pre)
            (NavNode.mk seg (joinSegs (pre ++ [seg])) "" [] false) forest)).Perm
            ((created ++ [joinSegs (pre ++ [seg])]).map (dirEntry done)
              ++ (done.filter leafKeep).map leafEntry) := by
          rw [List.map_append, List.map_singleton, hparpre]
          exact perm_cons_middle _ (hpush.trans ((h4).cons _))
        have hres := ih (pre ++ [seg])
          (pushAtForest (parentOf pre)
            (NavNode.mk seg (joinSegs (pre ++ [seg])) "" [] false) forest)
          (created ++ [joinSegs (pre ++ [seg])]) h1 h2' h3' hperm' h5
        rw [hpar] at hres
        exact hres

theorem perm_cons_snoc (x : α) {S A L : List α} (h : S.Perm (x :: (A ++ L))) :
    S.Perm (A ++ (L ++ [x])) := by
  have p1 : (x :: (A ++ L)).Perm (A ++ x :: L) := (@List.perm_middle _ x A L).symm
  have p2 : (x :: L).Perm (L ++ [x]) := by
    have h2 := @List.perm_middle _ x L []
    simpa using h2.symm
  exact (h.trans p1).trans (p2.append_left A)

theorem allPrefixes_append (done : List TFile) (f : TFile) :
    allPrefixes (done ++ [f]) = allPrefixes done ++ cumDirs f.path := by
  unfold allPrefixes
  rw [concatMap_append]
  simp [concatMap]

theorem mem_allPrefixes_append {done : List TFile} {f : TFile} {c : String} :
    c ∈ allPrefixes (done ++ [f]) ↔ c ∈ allPrefixes done ∨ c ∈ cumDirs f.path := by
  rw [allPrefixes_append, List.mem_append]

theorem cumDirs_single {p : String} (h : (splitSlash p).length = 1) :
    cumDirs p = [] := by
  unfold cumDirs ancList
  rw [h]
  rfl

theorem leafKeep_of_single {d : TFile} (h : (splitSlash d.path).length = 1) :
    leafKeep d = true := by
  unfold leafKeep
  rw [h]
  simp

theorem leafKeep_of_not_idx {d : TFile} (h : isIdxDoc d = false) :
    leafKeep d = true := by
  unfold leafKeep
  rw [h]
  simp

theorem leafKeep_false_of_idx {d : TFile} (h : isIdxDoc d = true)
    (h2 : 2 ≤ (splitSlash d.path).length) : leafKeep d = false := by
  unfold leafKeep
  rw [h]
  simp [h2]

theorem idxPred_false_of_single {d : TFile} (h : (splitSlash d.path).length = 1)
    (c : String) : idxPred c d = false := by
  unfold idxPred
  rw [h]
  simp

theorem idxPred_false_of_not_idx {d : TFile} (h : isIdxDoc d = false)
    (c : String) : idxPred c d = false := by
  unfold idxPred
  rw [h]
  simp

theorem idxPred_false_of_ne {d : TFile} {c : String} (h : navDirOf d ≠ c) :
    idxPred c d = false := by
  unfold idxPred
  simp [h]

theorem idxPred_true {d : TFile} (h : isIdxDoc d = true)
    (h2 : 2 ≤ (splitSlash d.path).length) : idxPred (navDirOf d) d = true := by
  unfold idxPred
  rw [h]
  simp [h2]

/-- The invariant of `buildNavigationTree`'s fold over the sorted file
list: the `dirMap` key set is exactly the set of ancestor-directory
paths of the processed documents, and the skeleton of the accumulated
forest is, as a multiset, one folder entry per key (carrying the index
document's output path when one was assigned) plus one leaf entry per
processed non-folder-index document. -/
theorem navFold_inv (all : List TFile)
    (hwf : ∀ d ∈ all, ∀ s ∈ splitSlash d.path, s ≠ "")
    (hmd : ∀ d ∈ all, endsWithCh (lastSeg d.path).data (String.data ".md") = true)
    (htc : ∀ d ∈ all, ∀ d2 ∈ all, d.path ∉ cumDirs d2.path)
    (hinj : ∀ d ∈ all, ∀ d2 ∈ all,
      getOutputPath d.path = getOutputPath d2.path → d.path = d2.path) :
    ∀ (todo done : List TFile) (st : List NavNode × List String),
      (∀ d, d ∈ done ++ todo → d ∈ all) →
      ((done ++ todo).map TFile.path).Nodup →
      st.2.Nodup →
      (∀ c, c ∈ st.2 ↔ c ∈ allPrefixes done) →
      (skelForest [] st.1).Perm
        (st.2.map (dirEntry done) ++ (done.filter leafKeep).map leafEntry) →
      ((todo.foldl navStep st).2.Nodup
       ∧ (∀ c, c ∈ (todo.foldl navStep st).2 ↔ c ∈ allPrefixes (done ++ todo))
       ∧ (skelForest [] (todo.foldl navStep st).1).Perm
          ((todo.foldl navStep st).2.map (dirEntry (done ++ todo))
            ++ ((done ++ todo).filter leafKeep).map leafEntry)) := by
  intro todo
  induction todo with
  | nil =>
    intro done st hsub hnd2 hst1 hst2 hst3
    rw [List.append_nil]
    exact ⟨hst1, hst2, hst3⟩
  | cons f todo' ih =>
    intro done st hsub hnd2 hst1 hst2 hst3
    have hfnotdone : f.path ∉ done.map TFile.path := by
      intro hmem2
      rw [List.map_append] at hnd2
      rcases List.nodup_append.mp hnd2 with ⟨-, -, hdisj⟩
      exact hdisj hmem2 (by simp)
    have hassoc : done ++ f :: todo' = (done ++ [f]) ++ todo' := by simp
    rw [hassoc] at hsub hnd2 ⊢
    rw [List.foldl_cons]
    have hf_all : f ∈ all := hsub f (by simp)
    have hdone_all : ∀ d ∈ done, d ∈ all := fun d hd => hsub d (by simp [hd])
    have hf_wf : ∀ s ∈ splitSlash f.path, s ≠ "" := hwf f hf_all
    by_cases hlen1 : (splitSlash f.path).length = 1
    · -- a root-level file becomes a root leaf node
      have hcd : cumDirs f.path = [] := cumDirs_single hlen1
      have hlk : leafKeep f = true := leafKeep_of_single hlen1
      have hmA : ∀ c, c ∈ st.2 ↔ c ∈ allPrefixes (done ++ [f]) := by
        intro c
        rw [mem_allPrefixes_append, hcd, hst2 c]
        simp
      have hde : ∀ c ∈ st.2, dirEntry (done ++ [f]) c = dirEntry done c := by
        intro c _
        unfold dirEntry
        rw [idxOut_append_nomatch (idxPred_false_of_single hlen1 c) done]
      have hperm' : (skelForest [] (st.1 ++ [NavNode.mk (tfBasename f) f.path
          (getOutputPath f.path) [] (isIdxDoc f)])).Perm
          (st.2.map (dirEntry (done ++ [f]))
            ++ ((done ++ [f]).filter leafKeep).map leafEntry) := by
        rw [skelForest_append, skelForest_singleton, skelNode_childless,
          List.filter_append, List.map_append,
          show List.filter leafKeep [f] = [f] from by
            simp [List.filter_cons, hlk],
          List.map_congr_left hde,
          show List.map leafEntry [f]
              = [(([] : List String), f.path, getOutputPath f.path)] from by
            simp [leafEntry, hcd],
          ← List.append_assoc]
        exact hst3.append_right _
      have hstep : navStep st f = (st.1 ++ [NavNode.mk (tfBasename f) f.path
          (getOutputPath f.path) [] (isIdxDoc f)], st.2) := by
        simp only [navStep]
        rw [if_pos hlen1]
      rw [hstep]
      exact ih (done ++ [f]) _ hsub hnd2 hst1 hmA hperm'
    · -- a nested file: the folder chain is ensured first
      have hlen2 : 2 ≤ (splitSlash f.path).length := by
        have h0' : 0 < (splitSlash f.path).length :=
          List.length_pos.mpr (splitSlash_ne_nil f.path)
        omega
      have hdne : (splitSlash f.path).dropLast ≠ [] := by
        intro h0
        have h1 := congrArg List.length h0
        rw [List.length_dropLast] at h1
        simp at h1
        omega
      have hcd2 : chainPaths ((splitSlash f.path).dropLast) = cumDirs f.path :=
        (cumDirs_eq_chainPaths f.path).symm
      have hspec := ensureChain_spec done ((splitSlash f.path).dropLast) [] st.1 st.2
        (by
          intro s hs
          rw [List.nil_append] at hs
          have hs' : s ∈ splitSlash f.path :=
            List.Sublist.mem hs (List.dropLast_sublist _)
          exact ⟨hf_wf s hs', mem_splitSlash_no_slash hs'⟩)
        (by
          intro c
          rw [hst2 c, chainPaths_nil]
          simp)
        hst1 hst3
        (by
          intro d hd
          rw [List.nil_append, hcd2]
          refine ⟨?_, ?_⟩
          · intro hin
            rcases mem_concatMap.mp hin with ⟨d2, hd2, hin2⟩
            exact htc d (hdone_all d hd) d2 (hdone_all d2 hd2) hin2
          · intro hin
            exact htc d (hdone_all d hd) f hf_all hin)
      rw [List.nil_append] at hspec
      rw [show parentOf ([] : List String) = "" from rfl] at hspec
      obtain ⟨hT, hM, hN, hP⟩ := hspec
      have hT' : (ensureChain ((splitSlash f.path).dropLast) "" st.1 st.2).2.2
          = navDirOf f := by
        rw [hT]
        unfold parentOf navDirOf
        rw [if_neg hdne]
      have hnavmem : navDirOf f
          ∈ (ensureChain ((splitSlash f.path).dropLast) "" st.1 st.2).2.1 :=
        (hM _).mpr (Or.inr (joinSegs_mem_chainPaths hdne))
      have hmA : ∀ c,
          c ∈ (ensureChain ((splitSlash f.path).dropLast) "" st.1 st.2).2.1
            ↔ c ∈ allPrefixes (done ++ [f]) := by
        intro c
        rw [hM c, mem_allPrefixes_append, hcd2]
      by_cases hIdx : isIdxDoc f = true
      · -- a nested index document is assigned onto its folder node
        have hfnone : done.find? (idxPred (navDirOf f)) = none := by
          cases hfind : done.find? (idxPred (navDirOf f)) with
          | none => rfl
          | some d2 =>
            exfalso
            have hd2mem : d2 ∈ done := List.mem_of_find?_eq_some hfind
            have hd2p : idxPred (navDirOf f) d2 = true := List.find?_some hfind
            unfold idxPred at hd2p
            simp only [Bool.and_eq_true, decide_eq_true_eq] at hd2p
            have hout : getOutputPath d2.path = getOutputPath f.path :=
              sameDirIdx_out (hmd d2 (hdone_all d2 hd2mem)) (hmd f hf_all)
                hd2p.1.1 hIdx hd2p.1.2 hlen2 hd2p.2
            have hpaths : d2.path = f.path :=
              hinj d2 (hdone_all d2 hd2mem) f hf_all hout
            exact hfnotdone (hpaths ▸ List.mem_map_of_mem TFile.path hd2mem)
        have hpredf : idxPred (navDirOf f) f = true := idxPred_true hIdx hlen2
        have hde : ∀ c ∈ (ensureChain ((splitSlash f.path).dropLast) "" st.1 st.2).2.1,
            updEntry (navDirOf f) (getOutputPath f.path) (dirEntry done c)
              = dirEntry (done ++ [f]) c := by
          intro c _
          by_cases hcf : c = navDirOf f
          · subst hcf
            unfold updEntry dirEntry
            dsimp only
            rw [if_pos rfl, idxOut_append_match hpredf hfnone]
          · unfold updEntry dirEntry
            dsimp only
            rw [if_neg hcf,
              idxOut_append_nomatch (idxPred_false_of_ne (fun h => hcf h.symm)) done]
        have hlf : ∀ d2 ∈ done.filter leafKeep,
            updEntry (navDirOf f) (getOutputPath f.path) (leafEntry d2)
              = leafEntry d2 := by
          intro d2 hd2
          unfold updEntry leafEntry
          dsimp only
          rw [if_neg (fun h => htc d2 (hdone_all d2 (List.mem_of_mem_filter hd2))
            f hf_all (by rw [h]; exact navDirOf_mem_cumDirs hlen2))]
        have hperm' : (skelForest [] (setAtForest
            (ensureChain ((splitSlash f.path).dropLast) "" st.1 st.2).2.2
            (getOutputPath f.path)
            (ensureChain ((splitSlash f.path).dropLast) "" st.1 st.2).1)).Perm
            ((ensureChain ((splitSlash f.path).dropLast) "" st.1 st.2).2.1.map
                (dirEntry (done ++ [f]))
              ++ ((done ++ [f]).filter leafKeep).map leafEntry) := by
          rw [hT', skel_setForest, List.filter_append,
            show List.filter leafKeep [f] = [] from by
              simp [List.filter_cons, leafKeep_false_of_idx hIdx hlen2],
            List.append_nil]
          have he1 : (((ensureChain ((splitSlash f.path).dropLast) "" st.1 st.2).2.1).map
              (dirEntry done)).map (updEntry (navDirOf f) (getOutputPath f.path))
              = ((ensureChain ((splitSlash f.path).dropLast) "" st.1 st.2).2.1).map
                (dirEntry (done ++ [f])) := by
            rw [List.map_map]
            exact List.map_congr_left (fun c hc => hde c hc)
          have he2 : ((done.filter leafKeep).map leafEntry).map
              (updEntry (navDirOf f) (getOutputPath f.path))
              = (done.filter leafKeep).map leafEntry := by
            rw [List.map_map]
            exact List.map_congr_left (fun d2 hd2 => hlf d2 hd2)
          have hp2 := hP.map (updEntry (navDirOf f) (getOutputPath f.path))
          rw [List.map_append, he1, he2] at hp2
          exact hp2
        have hstep : navStep st f = (setAtForest
            (ensureChain ((splitSlash f.path).dropLast) "" st.1 st.2).2.2
            (getOutputPath f.path)
            (ensureChain ((splitSlash f.path).dropLast) "" st.1 st.2).1,
            (ensureChain ((splitSlash f.path).dropLast) "" st.1 st.2).2.1) := by
          simp only [navStep]
          rw [if_neg hlen1, if_pos hIdx]
        rw [hstep]
        exact ih (done ++ [f]) _ hsub hnd2 hN hmA hperm'
      · -- a nested non-index document becomes a leaf under its folder node
        have hIdxF : isIdxDoc f = false := by
          cases h0 : isIdxDoc f
          · rfl
          · exact absurd h0 hIdx
        have hleafne2 : ∀ d2 ∈ done, d2.path ≠ navDirOf f := by
          intro d2 hd2 h0
          exact htc d2 (hdone_all d2 hd2) f hf_all
            (by rw [h0]; exact navDirOf_mem_cumDirs hlen2)
        have hfilt : (skelForest []
            (ensureChain ((splitSlash f.path).dropLast) "" st.1 st.2).1).filter
            (fun e => e.2.1 = navDirOf f)
            = [(ancList (splitSlash (navDirOf f)), navDirOf f,
                idxOut done (navDirOf f))] :=
          skel_filter_path hP hN hnavmem hleafne2
        have hpush := push_skelForest_match (navDirOf f)
          (NavNode.mk (tfBasename f) f.path (getOutputPath f.path) [] false) rfl
          (ensureChain ((splitSlash f.path).dropLast) "" st.1 st.2).1 []
          (ancList (splitSlash (navDirOf f))) (idxOut done (navDirOf f)) hfilt
        simp only [NavNode.path, NavNode.outputPath] at hpush
        have hancF : ancList (splitSlash (navDirOf f)) ++ [navDirOf f]
            = cumDirs f.path := by
          unfold navDirOf
          rw [splitSlash_joinSegs hdne (fun s hs => mem_splitSlash_no_slash
            (List.Sublist.mem hs (List.dropLast_sublist _)))]
          rw [← chainPaths_eq_ancList hdne, hcd2]
        have hentry : ((ancList (splitSlash (navDirOf f)) ++ [navDirOf f], f.path,
            getOutputPath f.path) : SkelEntry) = leafEntry f := by
          unfold leafEntry
          rw [hancF]
        have hde : ∀ c ∈ (ensureChain ((splitSlash f.path).dropLast) "" st.1 st.2).2.1,
            dirEntry (done ++ [f]) c = dirEntry done c := by
          intro c _
          unfold dirEntry
          rw [idxOut_append_nomatch (idxPred_false_of_not_idx hIdxF c) done]
        rw [hentry] at hpush
        have hperm' : (skelForest [] (pushAtForest
            (ensureChain ((splitSlash f.path).dropLast) "" st.1 st.2).2.2
            (NavNode.mk (tfBasename f) f.path (getOutputPath f.path) [] false)
            (ensureChain ((splitSlash f.path).dropLast) "" st.1 st.2).1)).Perm
            ((ensureChain ((splitSlash f.path).dropLast) "" st.1 st.2).2.1.map
                (dirEntry (done ++ [f]))
              ++ ((done ++ [f]).filter leafKeep).map leafEntry) := by
          have he1 : ((ensureChain ((splitSlash f.path).dropLast) "" st.1 st.2).2.1).map
              (dirEntry (done ++ [f]))
              = ((ensureChain ((splitSlash f.path).dropLast) "" st.1 st.2).2.1).map
                (dirEntry done) := List.map_congr_left hde
          rw [hT', List.filter_append,
            show List.filter leafKeep [f] = [f] from by
              simp [List.filter_cons, leafKeep_of_not_idx hIdxF],
            List.map_append, he1,
            show List.map leafEntry [f] = [leafEntry f] from rfl]
          exact perm_cons_snoc _ (hpush.trans (hP.cons _))
        have hstep : navStep st f = (pushAtForest
            (ensureChain ((splitSlash f.path).dropLast) "" st.1 st.2).2.2
            (NavNode.mk (tfBasename f) f.path (getOutputPath f.path) [] false)
            (ensureChain ((splitSlash f.path).dropLast) "" st.1 st.2).1,
            (ensureChain ((splitSlash f.path).dropLast) "" st.1 st.2).2.1) := by
          simp only [navStep]
          rw [if_neg hlen1, if_neg (by simp [hIdxF])]
        rw [hstep]
        exact ih (done ++ [f]) _ hsub hnd2 hN hmA hperm'

theorem sortFiles_perm (l : List TFile) : (sortFiles l).Perm l := by
  induction l with
  | nil => exact List.Perm.refl _
  | cons f fs ih =>
    show (insertFile f (sortFiles fs)).Perm (f :: fs)
    exact List.Perm.trans (insertFile_perm f (sortFiles fs)) (List.Perm.cons f ih)

theorem leafKeep_false_elim {d : TFile} (h : leafKeep d = false) :
    isIdxDoc d = true ∧ 2 ≤ (splitSlash d.path).length := by
  unfold leafKeep at h
  simpa using h

theorem chainPaths_length (l : List String) : (chainPaths l).length = l.length := by
  simp [chainPaths]

theorem idxOut_cases {done : List TFile} {c o : String} (h : idxOut done c = o)
    (hne : o ≠ "") :
    ∃ d2 ∈ done, idxPred c d2 = true ∧ getOutputPath d2.path = o := by
  unfold idxOut at h
  cases hfind : done.find? (idxPred c) with
  | none =>
    rw [hfind] at h
    exact absurd h.symm hne
  | some d2 =>
    rw [hfind] at h
    exact ⟨d2, List.mem_of_find?_eq_some hfind, List.find?_some hfind, h⟩

theorem idxOut_of_idx {done : List TFile} {d : TFile} (hd : d ∈ done)
    (hmdall : ∀ d2 ∈ done,
      endsWithCh (lastSeg d2.path).data (String.data ".md") = true)
    (hid : isIdxDoc d = true) (hl2 : 2 ≤ (splitSlash d.path).length) :
    idxOut done (navDirOf d) = getOutputPath d.path := by
  unfold idxOut
  cases hfind : done.find? (idxPred (navDirOf d)) with
  | none =>
    exfalso
    rw [List.find?_eq_none] at hfind
    exact absurd (idxPred_true hid hl2) (hfind d hd)
  | some d2 =>
    have hp := List.find?_some hfind
    have hm := List.mem_of_find?_eq_some hfind
    unfold idxPred at hp
    simp only [Bool.and_eq_true, decide_eq_true_eq] at hp
    dsimp only
    exact sameDirIdx_out (hmdall d2 hm) (hmdall d hd) hp.1.1 hid hp.1.2 hl2 hp.2

theorem dirEntry_chain {d : TFile} (hl2 : 2 ≤ (splitSlash d.path).length)
    (hwfd : ∀ s ∈ splitSlash d.path, s ≠ "") :
    ancList (splitSlash (navDirOf d))
      = (cumDirs d.path).take ((ancList (splitSlash (navDirOf d))).length) := by
  have hdne : (splitSlash d.path).dropLast ≠ [] := by
    intro h0
    have h1 := congrArg List.length h0
    rw [List.length_dropLast] at h1
    simp at h1
    omega
  have hsp : splitSlash (navDirOf d) = (splitSlash d.path).dropLast := by
    unfold navDirOf
    exact splitSlash_joinSegs hdne (fun s hs => mem_splitSlash_no_slash
      (List.Sublist.mem hs (List.dropLast_sublist _)))
  rw [hsp, ancList_eq_chainPaths, cumDirs_eq_chainPaths]
  have hlen : (chainPaths ((splitSlash d.path).dropLast.dropLast)).length
      = (splitSlash d.path).dropLast.length - 1 := by
    rw [chainPaths_length, List.length_dropLast]
  rw [hlen]
  rw [show ((splitSlash d.path).dropLast.dropLast)
      = ((splitSlash d.path).dropLast.take ((splitSlash d.path).dropLast.length - 1))
    from List.dropLast_eq_take _]
  rw [chainPaths_take]

/-- C7, counterexample to the claim as stated: navigation completeness
fails for the input set `A.md`, `a.md` — sanitization maps both base
names to `a`, so both documents share the output path
`obsidian-foursg/site/a.html` and the navigation tree contains two leaf
nodes with that output path instead of exactly one. -/
theorem c7_counterexample :
    ¬ NavComplete [TFile.mk "A.md", TFile.mk "a.md"] := by decide

/-- C7 (amended): for every duplicate-free, well-formed markdown input
set — every path segment nonempty, every file name ending in `.md`, no
document path that is also an ancestor directory of a document — whose
documents have pairwise distinct output paths, the navigation tree
contains exactly one NavNode whose output path equals each document's
output path, and the chain of ancestor nodes above that NavNode
consists exactly of folder nodes for the document's ancestor
directories (its path list is an initial segment of the document's
ancestor-directory list). -/
theorem c7_navigation_completeness (files : List TFile)
    (hnd : (files.map TFile.path).Nodup)
    (hwf : ∀ d ∈ files, ∀ s ∈ splitSlash d.path, s ≠ "")
    (hmd : ∀ d ∈ files,
      endsWithCh (lastSeg d.path).data (String.data ".md") = true)
    (htc : ∀ d ∈ files, ∀ d2 ∈ files, d.path ∉ cumDirs d2.path)
    (hinj : ∀ d ∈ files, ∀ d2 ∈ files,
      getOutputPath d.path = getOutputPath d2.path → d.path = d2.path) :
    NavComplete files := by
  have hperm := sortFiles_perm files
  have hsubs : ∀ x : TFile, x ∈ sortFiles files ↔ x ∈ files := fun x => hperm.mem_iff
  have hinv := navFold_inv files hwf hmd htc hinj (sortFiles files) [] ([], [])
    (by
      intro x hx
      rw [List.nil_append] at hx
      exact (hsubs x).mp hx)
    (by
      rw [List.nil_append]
      exact ((hperm.map TFile.path).nodup_iff).mpr hnd)
    List.nodup_nil
    (by intro c; simp [allPrefixes, concatMap])
    List.Perm.nil
  rw [List.nil_append] at hinv
  obtain ⟨hcN, hcM, hcP⟩ := hinv
  have hb : skel (buildNavigationTree files)
      = skelForest [] (((sortFiles files).foldl navStep ([], []))).1 := rfl
  intro d hd
  rw [hb]
  have hds : d ∈ sortFiles files := (hsubs d).mpr hd
  have hne : getOutputPath d.path ≠ "" := getOutputPath_ne_empty d.path
  have hsortNodup : (sortFiles files).Nodup :=
    List.Nodup.of_map TFile.path (((hperm.map TFile.path).nodup_iff).mpr hnd)
  have hout_iff : ∀ d2 ∈ sortFiles files,
      (getOutputPath d2.path = getOutputPath d.path ↔ d2 = d) := by
    intro d2 hd2
    constructor
    · intro h
      exact tfile_eq (hinj d2 ((hsubs d2).mp hd2) d hd h)
    · intro h
      rw [h]
  constructor
  · -- exactly one skeleton entry carries the document's output path
    have hfl := hcP.filter (fun e => e.2.2 = getOutputPath d.path)
    rw [hfl.length_eq, List.filter_append, filter_of_map, filter_of_map,
      List.length_append, List.length_map, List.length_map]
    by_cases hlk : leafKeep d = true
    · rw [show (((sortFiles files).foldl navStep ([], []))).2.filter
          (fun c => decide ((dirEntry (sortFiles files) c).2.2
            = getOutputPath d.path)) = [] from by
        rw [List.filter_eq_nil]
        intro c hc hdec
        have hio : idxOut (sortFiles files) c = getOutputPath d.path := by
          simpa using hdec
        obtain ⟨d2, hd2, hp, hout⟩ := idxOut_cases hio hne
        have hdd : d2 = d := (hout_iff d2 hd2).mp hout
        subst hdd
        unfold idxPred at hp
        simp only [Bool.and_eq_true, decide_eq_true_eq] at hp
        rw [leafKeep_false_of_idx hp.1.1 hp.1.2] at hlk
        exact Bool.false_ne_true hlk]
      rw [show ((sortFiles files).filter leafKeep).filter
          (fun d2 => decide ((leafEntry d2).2.2 = getOutputPath d.path))
          = [d] from by
        rw [List.filter_congr (fun d2 hd2 => show
            decide ((leafEntry d2).2.2 = getOutputPath d.path)
              = decide (d2 = d) from by
          rw [decide_eq_decide]
          exact hout_iff d2 (List.mem_of_mem_filter hd2))]
        exact filter_eq_singleton_of_nodup (hsortNodup.filter _)
          (List.mem_filter.mpr ⟨hds, hlk⟩)]
      rfl
    · have hlkf : leafKeep d = false := by
        cases h0 : leafKeep d
        · rfl
        · exact absurd h0 hlk
      obtain ⟨hid, hl2⟩ := leafKeep_false_elim hlkf
      have hnavmem2 : navDirOf d ∈ (((sortFiles files).foldl navStep ([], []))).2 :=
        (hcM _).mpr (mem_concatMap.mpr ⟨d, hds, navDirOf_mem_cumDirs hl2⟩)
      rw [List.filter_congr (fun c hc => show
          decide ((dirEntry (sortFiles files) c).2.2 = getOutputPath d.path)
            = decide (c = navDirOf d) from by
        rw [decide_eq_decide]
        constructor
        · intro h
          obtain ⟨d2, hd2, hp, hout⟩ :=
            idxOut_cases (show idxOut (sortFiles files) c = getOutputPath d.path
              from h) hne
          have hdd : d2 = d := (hout_iff d2 hd2).mp hout
          subst hdd
          unfold idxPred at hp
          simp only [Bool.and_eq_true, decide_eq_true_eq] at hp
          exact hp.2.symm
        · intro h
          subst h
          exact idxOut_of_idx hds
            (fun d2 hd2 => hmd d2 ((hsubs d2).mp hd2)) hid hl2)]
      rw [filter_eq_singleton_of_nodup hcN hnavmem2]
      rw [show ((sortFiles files).filter leafKeep).filter
          (fun d2 => decide ((leafEntry d2).2.2 = getOutputPath d.path))
          = [] from by
        rw [List.filter_eq_nil]
        intro d2 hd2 hdec
        have hout : getOutputPath d2.path = getOutputPath d.path := by
          simpa using hdec
        have hdd : d2 = d := (hout_iff d2 (List.mem_of_mem_filter hd2)).mp hout
        subst hdd
        rw [(List.mem_filter.mp hd2).2] at hlkf
        exact absurd hlkf (by decide)]
      rfl
  · -- every matching entry sits on the document's ancestor chain
    intro e he heq
    have hmem3 := hcP.mem_iff.mp he
    rcases List.mem_append.mp hmem3 with hmem4 | hmem4
    · rcases List.mem_map.mp hmem4 with ⟨c, hc, rfl⟩
      obtain ⟨d2, hd2, hp, hout⟩ :=
        idxOut_cases (show idxOut (sortFiles files) c = getOutputPath d.path
          from heq) hne
      have hdd : d2 = d := (hout_iff d2 hd2).mp hout
      subst hdd
      unfold idxPred at hp
      simp only [Bool.and_eq_true, decide_eq_true_eq] at hp
      rw [show (dirEntry (sortFiles files) c).1 = ancList (splitSlash c)
        from rfl, ← hp.2]
      exact dirEntry_chain hp.1.2 (hwf d2 ((hsubs d2).mp hd2))
    · rcases List.mem_map.mp hmem4 with ⟨d2, hd2, rfl⟩
      have hout : getOutputPath d2.path = getOutputPath d.path := heq
      have hdd : d2 = d := (hout_iff d2 (List.mem_of_mem_filter hd2)).mp hout
      rw [show (leafEntry d2).1 = cumDirs d2.path from rfl, hdd,
        List.take_length]

/-- Concrete instance discharging the amended C7 hypotheses: a root
file, a folder index and a folder leaf. -/
theorem c7_navigation_completeness_witness :
    NavComplete [TFile.mk "a.md", TFile.mk "dir/index.md", TFile.mk "dir/b.md"] :=
  c7_navigation_completeness _ (by decide) (by decide) (by decide) (by decide)
    (by decide)

end FourSG
